import Mathlib

/-!
Verification of the QRDM codec pipeline, embedded from
src/qrdm/qr/encode.py, src/qrdm/qr/decode.py and src/qrdm/models.py.

Byte strings are modelled as List Nat.  Python dicts keyed by sequence
number are modelled as insertion-ordered association lists.  External
collaborators (protobuf serialization, zlib, SHAKE-256, base-85 and the
reedsolo symbol codec) are modelled as parameters of the pipeline,
constrained in each theorem by their documented contracts; the repository
code itself (chunking, padding, null-stripping, fingerprinting, framing,
sequencing, erasure-recovery plumbing, sufficiency checks, dict merging)
is embedded directly from the source.
-/

namespace QRDM

/-- Extensionality for Nat lists through getD: equal lengths and equal
entries give equal lists. -/
theorem list_ext_getD {l₁ l₂ : List Nat} (h : l₁.length = l₂.length)
    (he : ∀ i, i < l₁.length → l₁.getD i 0 = l₂.getD i 0) : l₁ = l₂ := by
  apply List.ext_getElem h
  intro n h₁ h₂
  have := he n h₁
  rwa [List.getD_eq_getElem _ _ h₁, List.getD_eq_getElem _ _ h₂] at this

/-- Extensionality for matrices (lists of Nat lists) through getD. -/
theorem mat_ext_getD {M₁ M₂ : List (List Nat)} (h : M₁.length = M₂.length)
    (hrow : ∀ i, i < M₁.length → (M₁.getD i []).length = (M₂.getD i []).length)
    (he : ∀ i j, i < M₁.length → j < (M₁.getD i []).length →
      (M₁.getD i []).getD j 0 = (M₂.getD i []).getD j 0) : M₁ = M₂ := by
  apply List.ext_getElem h
  intro n h₁ h₂
  have hr := hrow n h₁
  rw [List.getD_eq_getElem _ _ h₁, List.getD_eq_getElem _ _ h₂] at hr
  apply list_ext_getD hr
  intro j hj
  have := he n j h₁ (by rwa [List.getD_eq_getElem _ _ h₁])
  rwa [List.getD_eq_getElem _ _ h₁, List.getD_eq_getElem _ _ h₂] at this

theorem getD_append_left {l₁ l₂ : List Nat} {i : Nat} (h : i < l₁.length) :
    (l₁ ++ l₂).getD i 0 = l₁.getD i 0 := by
  rw [List.getD_eq_getElem _ _ (by simp; omega), List.getD_eq_getElem _ _ h,
    List.getElem_append]
  simp [h]

theorem getD_tail (l : List Nat) (j : Nat) : l.tail.getD j 0 = l.getD (j + 1) 0 := by
  cases l <;> simp [List.getD]

theorem headD_eq_getD (l : List Nat) : l.headD 0 = l.getD 0 0 := by
  cases l <;> simp [List.getD]

/-- Fuel-driven transpose; the fuel bounds the number of produced columns. -/
def pyZipAux : Nat → List (List Nat) → List (List Nat)
  | 0, _ => []
  | fuel + 1, M =>
    if M.isEmpty || M.any (·.isEmpty) then []
    else (M.map (·.headD 0)) :: pyZipAux fuel (M.map (·.tail))

/-- Model of the Python builtin zip applied to unpacked rows: transpose a
list of rows, truncated at the shortest row. -/
def pyZip (M : List (List Nat)) : List (List Nat) :=
  pyZipAux (M.headD []).length M

/-- A matrix is rectangular when every row has length L. -/
def Rect (M : List (List Nat)) (L : Nat) : Prop := ∀ r ∈ M, r.length = L

theorem rect_tails {M : List (List Nat)} {L : Nat} (hR : Rect M (L + 1)) :
    Rect (M.map (·.tail)) L := by
  intro r hr
  rcases List.mem_map.mp hr with ⟨s, hs, rfl⟩
  have := hR s hs
  simp [List.length_tail, this]

theorem getD_mem_of_lt {l : List (List Nat)} {i : Nat} (h : i < l.length) :
    l.getD i [] ∈ l := by
  rw [List.getD_eq_getElem _ _ h]
  exact List.getElem_mem h

theorem pyZipAux_no_empty_row {M : List (List Nat)} {L : Nat}
    (hM : M ≠ []) (hR : Rect M (L + 1)) :
    (M.isEmpty || M.any (·.isEmpty)) = false := by
  have h1 : M.isEmpty = false := by
    cases M
    · exact absurd rfl hM
    · rfl
  have h2 : M.any (·.isEmpty) = false := by
    simp only [List.any_eq_false]
    intro r hr
    have := hR r hr
    cases r
    · simp at this
    · simp
  rw [h1, h2]
  rfl

theorem pyZipAux_succ {M : List (List Nat)} {L fuel : Nat}
    (hM : M ≠ []) (hR : Rect M (L + 1)) :
    pyZipAux (fuel + 1) M
      = (M.map (·.headD 0)) :: pyZipAux fuel (M.map (·.tail)) := by
  rw [pyZipAux, pyZipAux_no_empty_row hM hR]
  rfl

theorem pyZipAux_length {L : Nat} :
    ∀ {M : List (List Nat)}, M ≠ [] → Rect M L → (pyZipAux L M).length = L := by
  induction L with
  | zero => intro M _ _; rfl
  | succ L ih =>
    intro M hM hR
    rw [pyZipAux_succ hM hR]
    have hM' : M.map (fun r => List.tail r) ≠ [] := by
      simpa using hM
    simp [ih hM' (rect_tails hR)]

theorem pyZipAux_rect {L : Nat} :
    ∀ {M : List (List Nat)}, Rect M L → Rect (pyZipAux L M) M.length := by
  induction L with
  | zero => intro M _ r hr; simp [pyZipAux] at hr
  | succ L ih =>
    intro M hR r hr
    by_cases hM : M = []
    · subst hM; simp [pyZipAux] at hr
    rw [pyZipAux_succ hM hR, List.mem_cons] at hr
    rcases hr with rfl | hr
    · simp
    · have := ih (rect_tails hR) r hr
      simpa using this

theorem pyZipAux_getD {L : Nat} :
    ∀ {M : List (List Nat)} {i j : Nat}, Rect M L → i < M.length → j < L →
      ((pyZipAux L M).getD j []).getD i 0 = (M.getD i []).getD j 0 := by
  induction L with
  | zero => intro M i j _ _ hj; omega
  | succ L ih =>
    intro M i j hR hi hj
    have hM : M ≠ [] := by
      intro h; subst h; simp at hi
    rw [pyZipAux_succ hM hR]
    match j with
    | 0 =>
      show ((M.map (·.headD 0)).getD i 0) = (M.getD i []).getD 0 0
      rw [List.getD_eq_getElem _ _ (by simpa using hi),
        List.getElem_map, List.getD_eq_getElem _ _ hi, headD_eq_getD]
    | j + 1 =>
      show ((pyZipAux L (M.map (·.tail))).getD j []).getD i 0
        = (M.getD i []).getD (j + 1) 0
      rw [ih (rect_tails hR) (by simpa using hi) (by omega)]
      rw [List.getD_eq_getElem (M.map (·.tail)) _ (by simpa using hi),
        List.getElem_map, List.getD_eq_getElem _ _ hi]
      exact getD_tail _ _

theorem pyZip_eq_aux {M : List (List Nat)} {L : Nat} (hM : M ≠ []) (hR : Rect M L) :
    pyZip M = pyZipAux L M := by
  unfold pyZip
  rcases M with _ | ⟨r, rs⟩
  · exact absurd rfl hM
  · have : r.length = L := hR r (by simp)
    simp [this]

theorem pyZip_length {M : List (List Nat)} {L : Nat} (hM : M ≠ []) (hR : Rect M L) :
    (pyZip M).length = L := by
  rw [pyZip_eq_aux hM hR]; exact pyZipAux_length hM hR

theorem pyZip_rect {M : List (List Nat)} {L : Nat} (hM : M ≠ []) (hR : Rect M L) :
    Rect (pyZip M) M.length := by
  rw [pyZip_eq_aux hM hR]; exact pyZipAux_rect hR

theorem pyZip_getD {M : List (List Nat)} {L i j : Nat} (hM : M ≠ []) (hR : Rect M L)
    (hi : i < M.length) (hj : j < L) :
    ((pyZip M).getD j []).getD i 0 = (M.getD i []).getD j 0 := by
  rw [pyZip_eq_aux hM hR]; exact pyZipAux_getD hR hi hj

theorem pyZip_ne_nil {M : List (List Nat)} {L : Nat} (hM : M ≠ []) (hR : Rect M L)
    (hL : 0 < L) : pyZip M ≠ [] := by
  intro h
  have := pyZip_length hM hR
  rw [h] at this
  simp at this
  omega

/-- Transposing twice is the identity on nonempty rectangular matrices. -/
theorem pyZip_pyZip {M : List (List Nat)} {L : Nat} (hM : M ≠ []) (hR : Rect M L)
    (hL : 0 < L) : pyZip (pyZip M) = M := by
  have hlen := pyZip_length hM hR
  have hrect := pyZip_rect hM hR
  have hne := pyZip_ne_nil hM hR hL
  apply mat_ext_getD
  · rw [pyZip_length hne hrect]
  · intro i hi
    rw [pyZip_length hne hrect] at hi
    have h1 : (pyZip (pyZip M)).getD i [] ∈ pyZip (pyZip M) :=
      getD_mem_of_lt (by rw [pyZip_length hne hrect]; exact hi)
    have h2 := pyZip_rect hne hrect _ h1
    rw [h2, hlen]
    exact (hR _ (getD_mem_of_lt hi)).symm
  · intro i j hi hj
    rw [pyZip_length hne hrect] at hi
    have h1 : (pyZip (pyZip M)).getD i [] ∈ pyZip (pyZip M) :=
      getD_mem_of_lt (by rw [pyZip_length hne hrect]; exact hi)
    have hjL : j < L := by
      have h2 := pyZip_rect hne hrect _ h1
      rw [h2, hlen] at hj
      exact hj
    rw [pyZip_getD hne hrect (by rwa [hlen]) hi,
      pyZip_getD hM hR hi hjL]

/-- Model of the Python expression bytes.strip of the null byte, as used in
encode.py line 196 and decode.py line 199: LEADING and trailing 0x00 bytes
are removed. -/
def pyStrip0 (b : List Nat) : List Nat :=
  ((b.dropWhile (· == 0)).reverse.dropWhile (· == 0)).reverse

/-- Stripping of trailing 0x00 bytes only, as the specification words it
(section 4.3); kept for comparison with the function the source computes. -/
def stripTrailingNulls (b : List Nat) : List Nat :=
  (b.reverse.dropWhile (· == 0)).reverse

theorem dropWhile_replicate_zero (n : Nat) :
    (List.replicate n 0).dropWhile (· == 0) = ([] : List Nat) := by
  induction n with
  | zero => rfl
  | succ n ih => simp [List.replicate_succ, List.dropWhile_cons, ih]

theorem dropWhile_append_replicate_zero (l : List Nat) (n : Nat) :
    (List.replicate n 0 ++ l).dropWhile (· == 0) = l.dropWhile (· == 0) := by
  induction n with
  | zero => rfl
  | succ n ih => simp [List.replicate_succ, List.dropWhile_cons, ih]

theorem dropWhile_zero_append (l₁ l₂ : List Nat) :
    (l₁ ++ l₂).dropWhile (· == 0)
      = if l₁.dropWhile (· == 0) = [] then l₂.dropWhile (· == 0)
        else l₁.dropWhile (· == 0) ++ l₂ := by
  induction l₁ with
  | nil => simp
  | cons a t ih =>
    by_cases ha : a = 0
    · subst ha
      simpa [List.dropWhile_cons] using ih
    · simp [List.dropWhile_cons, ha]

/-- Appending null padding does not change the stripped bytes. -/
theorem pyStrip0_append_zeros (b : List Nat) (n : Nat) :
    pyStrip0 (b ++ List.replicate n 0) = pyStrip0 b := by
  unfold pyStrip0
  rw [dropWhile_zero_append]
  by_cases hb : b.dropWhile (· == 0) = []
  · rw [if_pos hb, hb, dropWhile_replicate_zero]
  · rw [if_neg hb, List.reverse_append, List.reverse_replicate,
      dropWhile_append_replicate_zero]

/-- Without leading null bytes, the two-sided strip of the source equals the
trailing-only strip of the specification. -/
theorem pyStrip0_eq_stripTrailing {b : List Nat} {h0 : Nat}
    (hh : b.head? = some h0) (hne : h0 ≠ 0) :
    pyStrip0 b = stripTrailingNulls b := by
  unfold pyStrip0 stripTrailingNulls
  congr 2
  cases b with
  | nil => simp at hh
  | cons a t =>
    simp at hh
    subst hh
    rw [List.dropWhile_cons]
    simp [hne]

/-- Modelled from the spec: the length in bytes of the protobuf varint
encoding of n (7 value bits per byte).  The generated protobuf module
(qrdm_pb2) is not part of the sources; section 6 of the specification fixes
the wire format.  The fuel of 11 bytes covers every value up to 2 ^ 70. -/
def varintLenAux : Nat → Nat → Nat
  | 0, _ => 0
  | fuel + 1, n => if n < 128 then 1 else 1 + varintLenAux fuel (n / 128)

def varintLen (n : Nat) : Nat := varintLenAux 11 n

/-- Modelled from the spec: byte size of a QRMeta message with all four
fields at their maximum values; each field costs one tag byte plus the
varint encoding of its value (section 4.1 and section 6). -/
def MAX_QRMETA_LEN : Nat :=
  (1 + varintLen (2 ^ 64 - 1)) + 3 * (1 + varintLen (2 ^ 32 - 1))

def MAX_VARINT_LEN : Nat := 10

/-- Reserved frame overhead per QR, embedded from qrdm/qr/protobuf: the
maximum QRMeta size plus four maximum-length varints. -/
def PROTOBUF_RESERVED_LEN : Nat := MAX_QRMETA_LEN + 4 * MAX_VARINT_LEN

theorem PROTOBUF_RESERVED_LEN_eq : PROTOBUF_RESERVED_LEN = 69 := by
  decide

/-- Sequence numbers are recorded as 32-bit uints (encode.py line 36). -/
def N_MAX_QRS : Nat := 2 ^ 32

/-- Chunk capacity derived in generate_qr_payloads lines 201-204: QR byte
capacity minus the protobuf reservation, scaled by 4/5 for base-85
inflation. -/
def chunkSize (cap : Nat) : Nat := ((cap - PROTOBUF_RESERVED_LEN) / 5) * 4

/-- Embedding of split_file_content (encode.py lines 281-289): split into
chunks of maximumLength bytes, null-padding the final chunk.  The
positivity guard on maximumLength reflects the caller's invariant (the
Python generator does not terminate on maximum_length = 0 with nonempty
content). -/
def split_file_content (content : List Nat) (maximumLength : Nat) :
    List (List Nat) :=
  if h : maximumLength < content.length ∧ 0 < maximumLength then
    content.take maximumLength ::
      split_file_content (content.drop maximumLength) maximumLength
  else
    [content ++ List.replicate (maximumLength - content.length) 0]
termination_by content.length
decreasing_by
  simp only [List.length_drop]
  omega

theorem split_file_content_of_gt {c : List Nat} {m : Nat}
    (h1 : m < c.length) (h2 : 0 < m) :
    split_file_content c m = c.take m :: split_file_content (c.drop m) m := by
  rw [split_file_content, dif_pos ⟨h1, h2⟩]

theorem split_file_content_of_le {c : List Nat} {m : Nat}
    (h1 : ¬(m < c.length ∧ 0 < m)) :
    split_file_content c m = [c ++ List.replicate (m - c.length) 0] := by
  rw [split_file_content, dif_neg h1]

/-- Full characterization of the chunker: number of chunks, uniform chunk
length, and concatenation recovering the input plus tail null padding. -/
theorem split_file_content_spec {m : Nat} (h2 : 0 < m) :
    ∀ n (c : List Nat), c.length ≤ n →
      (split_file_content c m).length = max 1 ((c.length + m - 1) / m) ∧
      Rect (split_file_content c m) m ∧
      (split_file_content c m).join
        = c ++ List.replicate ((split_file_content c m).length * m - c.length) 0 := by
  intro n
  induction n with
  | zero =>
    intro c hc
    have hlen : c.length = 0 := by omega
    have hle : ¬(m < c.length ∧ 0 < m) := by omega
    rw [split_file_content_of_le hle]
    have hd : (c.length + m - 1) / m < 2 := by
      rw [Nat.div_lt_iff_lt_mul h2]
      omega
    refine ⟨?_, ?_, by simp [hlen]⟩
    · simp only [List.length_cons, List.length_nil]
      rw [Nat.max_eq_left (by omega)]
    · intro r hr
      simp at hr
      subst hr
      simp
      omega
  | succ n ih =>
    intro c hc
    by_cases h1 : m < c.length
    · rw [split_file_content_of_gt h1 h2]
      have hdrop : (c.drop m).length ≤ n := by
        simp only [List.length_drop]
        omega
      obtain ⟨ihl, ihr, ihj⟩ := ih (c.drop m) hdrop
      have hdl : (c.drop m).length = c.length - m := by simp
      constructor
      · simp only [List.length_cons, ihl, hdl]
        have hx : (c.length - m + m - 1) / m = (c.length - 1) / m := by
          congr 1
          omega
        have hy : 1 ≤ (c.length - 1) / m := by
          rw [Nat.le_div_iff_mul_le h2]
          omega
        have hz : (c.length + m - 1) / m = (c.length - 1 + m) / m := by
          congr 1
          omega
        rw [hx, hz, Nat.add_div_right _ h2, Nat.max_eq_right hy,
          Nat.max_eq_right (by omega : 1 ≤ (c.length - 1) / m + 1)]
      constructor
      · intro r hr
        rcases List.mem_cons.mp hr with rfl | hr
        · simp
          omega
        · exact ihr r hr
      · simp only [List.join_cons, ihj, List.length_cons]
        rw [← List.append_assoc, List.take_append_drop]
        congr 2
        simp only [hdl]
        have : 0 < (split_file_content (c.drop m) m).length := by
          rw [ihl]
          omega
        generalize (split_file_content (c.drop m) m).length = q at this ⊢
        rw [Nat.succ_mul]
        omega
    · have hle : ¬(m < c.length ∧ 0 < m) := by
        intro h
        exact h1 h.1
      rw [split_file_content_of_le hle]
      refine ⟨?_, ?_, by simp⟩
      · simp only [List.length_cons, List.length_nil]
        have hd : (c.length + m - 1) / m < 2 := by
          rw [Nat.div_lt_iff_lt_mul h2]
          omega
        rw [Nat.max_eq_left (by omega)]
      · intro r hr
        simp at hr
        subst hr
        simp
        omega

/-- Metadata of individual QRDM QR codes (models.py QRMeta). -/
structure QRMeta where
  document_hash : Nat
  sequence_number : Nat
  total_qr_codes : Nat
  num_ecc : Nat
deriving DecidableEq

/-- Data content of individual QRDM QR codes (models.py QRContent). -/
structure QRContent where
  meta : QRMeta
  doc_fragment : List Nat
deriving DecidableEq

/-- Source document with optional metadata (models.py DocumentPayload).
The JSON metadata value type is kept abstract. -/
structure DocumentPayload (μ : Type) where
  content : String
  metadata : Option μ
deriving DecidableEq

/-- External collaborators of the codec: protobuf serialization of the two
message types, zlib compression, SHAKE-256 with an 8-byte digest read as a
big-endian uint64, base-85 framing of QRContent (serialization and base-85
composed, as in models.py model_dump_b85_bytes and
model_validate_b85_bytes), and the reedsolo symbol codec.  Every theorem
states the contracts it relies on as explicit hypotheses. -/
structure ExtCollab (μ : Type) where
  serializeDoc : DocumentPayload μ → List Nat
  parseDoc : List Nat → Option (DocumentPayload μ)
  compress : List Nat → List Nat
  decompress : List Nat → Option (List Nat)
  shake256len8 : List Nat → Nat
  dumpQRb85 : QRContent → List Nat
  parseQRb85 : List Nat → Option QRContent
  rsEncode : Nat → List Nat → List Nat
  rsDecode : Nat → List Nat → List Nat → Option (List Nat)

/-- Encode-side failure kinds (exceptions.py QREncodeError call sites in
encode.py). -/
inductive QREncodeError
  | TooManyCodes
  | ECCFailed
deriving DecidableEq

/-- Decode-side failure kinds (exception call sites in decode.py; NoFrames
stands for the StopIteration that an empty dict would raise, a case the
caller rules out). -/
inductive QRDecodeError
  | BadFrame
  | NoFrames
  | InsufficientCodes
  | UnrecoverableLoss
  | ChecksumMismatch
  | Corrupt
deriving DecidableEq

/-- Serialized then zlib-compressed document, as produced by
model_dump_compressed_bytes (models.py lines 125-128). -/
def compressedBytes {μ : Type} (ext : ExtCollab μ) (doc : DocumentPayload μ) :
    List Nat :=
  ext.compress (ext.serializeDoc doc)

/-- Document fingerprint (encode.py lines 196-199): SHAKE-256 digest of the
null-stripped compressed bytes. -/
def documentHash {μ : Type} (ext : ExtCollab μ) (doc : DocumentPayload μ) : Nat :=
  ext.shake256len8 (pyStrip0 (compressedBytes ext doc))

/-- Fragment selection of generate_qr_payloads lines 206-215: a single
unpadded chunk when the document fits, otherwise split_file_content. -/
def makeFragments (b : List Nat) (cs : Nat) : List (List Nat) :=
  if b.length ≤ cs then [b] else split_file_content b cs

/-- Ceiling of 256 times EC_CODE_PROPORTION over (1 + EC_CODE_PROPORTION),
with EC_CODE_PROPORTION = 0.2 = 1/5 (encode.py line 222; the float
computation there rounds to the exact rational value). -/
def maxEcc : Nat := (256 + 5) / 6

/-- Parity count chosen in generate_qr_payloads lines 218-234; the ceiling
of k times 0.2 equals (k + 4) / 5 exactly (the double-precision product
never crosses an integer boundary for k below 2 ^ 32). -/
def numEcc (ecc : Bool) (k : Nat) : Nat :=
  if ecc then min maxEcc ((k + 4) / 5) else 0

/-- Projected number of QR codes (encode.py lines 224-226 and 234). -/
def nQrExpected (ecc : Bool) (k : Nat) : Nat :=
  if ecc then k + (1 + (k / (256 - numEcc ecc k)) * numEcc ecc k) else k

/-- Embedding of generate_ec_fragments (encode.py lines 292-306):
transpose the chunk list, apply the reedsolo encoder per column, transpose
back. -/
def generate_ec_fragments (rsEncode : List Nat → List Nat)
    (payloadFragments : List (List Nat)) : List (List Nat) :=
  pyZip ((pyZip payloadFragments).map rsEncode)

/-- Number of raw data fragments for a document at a given capacity. -/
def numFragments {μ : Type} (ext : ExtCollab μ) (doc : DocumentPayload μ)
    (cap : Nat) : Nat :=
  (makeFragments (compressedBytes ext doc) (chunkSize cap)).length

/-- Final fragment list of generate_qr_payloads (encode.py lines 243-244):
the data chunks, extended with parity chunks when num_ecc is positive. -/
def finalFragments {μ : Type} (ext : ExtCollab μ) (doc : DocumentPayload μ)
    (ecc : Bool) (cap : Nat) : List (List Nat) :=
  let payloadFragments := makeFragments (compressedBytes ext doc) (chunkSize cap)
  let necc := numEcc ecc payloadFragments.length
  if 0 < necc then generate_ec_fragments (ext.rsEncode necc) payloadFragments
  else payloadFragments

/-- Per-fragment framing loop of generate_qr_payloads (encode.py lines
246-278): each fragment is wrapped with its QRMeta and base-85 encoded. -/
def qrPayloadList {μ : Type} (ext : ExtCollab μ) (doc : DocumentPayload μ)
    (ecc : Bool) (cap : Nat) : List (List Nat) :=
  (finalFragments ext doc ecc cap).enum.map fun p =>
    ext.dumpQRb85
      ⟨⟨documentHash ext doc, p.1, (finalFragments ext doc ecc cap).length,
        numEcc ecc (numFragments ext doc cap)⟩, p.2⟩

/-- Embedding of generate_qr_payloads (encode.py lines 185-278), with cap
standing for the QR_CAPACITIES entry at QR_SIZE and the chosen error
tolerance (the bundled capacity CSV is not part of the sources). -/
def generate_qr_payloads {μ : Type} (ext : ExtCollab μ) (doc : DocumentPayload μ)
    (ecc : Bool) (cap : Nat) : Except QREncodeError (List (List Nat)) :=
  if N_MAX_QRS ≤ nQrExpected ecc (numFragments ext doc cap) then
    .error .TooManyCodes
  else
    .ok (qrPayloadList ext doc ecc cap)

/-- Lookup in a Python dict modelled as an insertion-ordered association
list. -/
def alookup {α : Type} : List (Nat × α) → Nat → Option α
  | [], _ => none
  | (k0, v) :: rest, k => if k0 = k then some v else alookup rest k

/-- Python dict item assignment: replace in place when the key exists,
append otherwise. -/
def ainsert {α : Type} : List (Nat × α) → Nat → α → List (Nat × α)
  | [], k, v => [(k, v)]
  | (k0, v0) :: rest, k, v =>
    if k0 = k then (k0, v) :: rest else (k0, v0) :: ainsert rest k v

/-- Python dict.update: assign every entry of the second dict into the
first, overwriting values at existing keys. -/
def aupdate {α : Type} (d₁ d₂ : List (Nat × α)) : List (Nat × α) :=
  d₂.foldl (fun acc p => ainsert acc p.1 p.2) d₁

abbrev QRDict := List (Nat × QRContent)

/-- Embedding of parse_qr_contents (decode.py lines 254-276): parse every
decode in order, raising on the first failure, and key the results by
sequence number with dict assignment. -/
def parse_qr_contents (parse : List Nat → Option QRContent) :
    List (List Nat) → QRDict → Except QRDecodeError QRDict
  | [], acc => .ok acc
  | d :: rest, acc =>
    match parse d with
    | none => .error .BadFrame
    | some content =>
      parse_qr_contents parse rest
        (ainsert acc content.meta.sequence_number content)

/-- Merging of retry-pass results into the running frame map, embedded from
the dict copy plus dict.update in batch_filter_and_decode_qr_imgs
(decode.py lines 285-307) and the dict.update in
extract_qr_contents_from_images (line 133). -/
def merge_contents (existing new : QRDict) : QRDict := aupdate existing new

/-- Embedding of sufficient_decodes (decode.py lines 320-330). -/
def sufficient_decodes (qrContents : QRDict) : Bool :=
  match qrContents with
  | [] => false
  | (_, oneCode) :: _ =>
    oneCode.meta.total_qr_codes - oneCode.meta.num_ecc ≤ qrContents.length

/-- Key order used by Python sorted on dict items. -/
def keyLe {α : Type} (p q : Nat × α) : Prop := p.1 ≤ q.1

instance {α : Type} : DecidableRel (@keyLe α) := fun p q => Nat.decLe p.1 q.1

/-- Sequencing of a list of optional values. -/
def allSome {α : Type} : List (Option α) → Option (List α)
  | [] => some []
  | none :: _ => none
  | some x :: rest => (allSome rest).map (x :: ·)

/-- Embedding of the fragment-recovery portion of
reconstruct_document_payload (decode.py lines 167-194): complete the
fragment dict with null rows at missing sequence numbers, sort by key,
and when parity is present run the reedsolo erasure decoder per column
with the missing indices as the erasure set. -/
def recover_payloads (rsDecode : Nat → List Nat → List Nat → Option (List Nat))
    (extractedContents : QRDict) (totalQrCodes nEcc : Nat) :
    Except QRDecodeError (List (List Nat)) :=
  let docFragments : List (Nat × List Nat) :=
    extractedContents.map fun p => (p.1, p.2.doc_fragment)
  let maxPayloadLen := (docFragments.map fun p => p.2.length).foldl max 0
  let droppedCodeInds :=
    (List.range totalQrCodes).filter fun s => (alookup extractedContents s).isNone
  let completed :=
    docFragments ++ droppedCodeInds.map fun s => (s, List.replicate maxPayloadLen 0)
  let sortedPayloads := (List.insertionSort keyLe completed).map fun p => p.2
  if 0 < nEcc then
    match allSome ((pyZip sortedPayloads).map fun col =>
        rsDecode nEcc col droppedCodeInds) with
    | none => .error .UnrecoverableLoss
    | some fixedSymbols => .ok (pyZip fixedSymbols)
  else .ok sortedPayloads

/-- Embedding of reconstruct_document_payload (decode.py lines 151-214):
meta from the first frame, sufficiency guard, fragment recovery, fingerprint
check over the stripped concatenation, inflate and parse. -/
def reconstruct_document_payload {μ : Type} (ext : ExtCollab μ)
    (extractedContents : QRDict) : Except QRDecodeError (DocumentPayload μ) :=
  match extractedContents with
  | [] => .error .NoFrames
  | (_, firstContent) :: _ =>
    let totalQrCodes := firstContent.meta.total_qr_codes
    let nEcc := firstContent.meta.num_ecc
    let minQrsNeeded := totalQrCodes - nEcc
    if extractedContents.length < minQrsNeeded then
      .error .InsufficientCodes
    else
      match recover_payloads ext.rsDecode extractedContents totalQrCodes nEcc with
      | .error e => .error e
      | .ok sortedPayloads =>
        let totalPayloadBytes := sortedPayloads.join
        let documentHashCheck := ext.shake256len8 (pyStrip0 totalPayloadBytes)
        if documentHashCheck ≠ firstContent.meta.document_hash then
          .error .ChecksumMismatch
        else
          match ext.decompress totalPayloadBytes with
          | none => .error .Corrupt
          | some inflated =>
            match ext.parseDoc inflated with
            | none => .error .Corrupt
            | some doc => .ok doc

def keyLt {α : Type} (p q : Nat × α) : Prop := p.1 < q.1

instance {α : Type} : IsTotal (Nat × α) keyLe := ⟨fun a b => Nat.le_total a.1 b.1⟩

instance {α : Type} : IsTrans (Nat × α) keyLe := ⟨fun _ _ _ h1 h2 => Nat.le_trans h1 h2⟩

instance {α : Type} : IsAntisymm (Nat × α) keyLt :=
  ⟨fun _ _ h1 h2 => absurd h2 (Nat.lt_asymm h1)⟩

theorem pairwise_keyLt_of_le_ne {α : Type} {l : List (Nat × α)}
    (h1 : l.Pairwise keyLe) (h2 : l.Pairwise fun p q => p.1 ≠ q.1) :
    l.Pairwise keyLt := by
  induction l with
  | nil => constructor
  | cons a t ih =>
    cases h1 with
    | cons ha h1t =>
      cases h2 with
      | cons hb h2t =>
        exact List.Pairwise.cons
          (fun q hq => Nat.lt_of_le_of_ne (ha q hq) (hb q hq)) (ih h1t h2t)

theorem eq_keymap {α : Type} (f : Nat → α) :
    ∀ (l : List (Nat × α)), (∀ p ∈ l, p.2 = f p.1) →
      l = (l.map Prod.fst).map fun s => (s, f s) := by
  intro l
  induction l with
  | nil => intro _; rfl
  | cons a t ih =>
    intro h
    have ha : a.2 = f a.1 := h a (by simp)
    have ht := ih fun p hp => h p (by simp [hp])
    simp only [List.map_cons]
    rw [← ht, ← ha]

/-- Sorting an association list whose keys are a permutation of range n and
whose values are determined by a function of the key yields exactly the
range-indexed list. -/
theorem insertionSort_keymap {α : Type} {l : List (Nat × α)} {n : Nat} {f : Nat → α}
    (hperm : List.Perm (l.map Prod.fst) (List.range n))
    (hval : ∀ p ∈ l, p.2 = f p.1) :
    List.insertionSort keyLe l = (List.range n).map fun s => (s, f s) := by
  have hl : l = (l.map Prod.fst).map fun s => (s, f s) := eq_keymap f l hval
  have hlt : List.Perm l ((List.range n).map fun s => (s, f s)) := by
    rw [hl]
    exact hperm.map _
  have hsp : List.Perm (List.insertionSort keyLe l)
      ((List.range n).map fun s => (s, f s)) :=
    (List.perm_insertionSort keyLe l).trans hlt
  have hnodup : ((List.insertionSort keyLe l).map Prod.fst).Nodup := by
    have hp : List.Perm ((List.insertionSort keyLe l).map Prod.fst) (List.range n) :=
      ((List.perm_insertionSort keyLe l).map Prod.fst).trans hperm
    exact hp.symm.nodup (List.nodup_range n)
  have hs1 : List.Pairwise keyLt (List.insertionSort keyLe l) := by
    apply pairwise_keyLt_of_le_ne (List.sorted_insertionSort keyLe l)
    exact List.pairwise_map.mp hnodup
  have hs2 : List.Pairwise keyLt ((List.range n).map fun s => (s, f s)) := by
    apply List.Pairwise.map
    · intro a b hab
      exact hab
    · exact List.pairwise_lt_range n
  exact List.eq_of_perm_of_sorted hsp hs1 hs2

theorem alookup_eq_none_iff {α : Type} (d : List (Nat × α)) (k : Nat) :
    alookup d k = none ↔ k ∉ d.map Prod.fst := by
  induction d with
  | nil => simp [alookup]
  | cons a t ih =>
    obtain ⟨k0, v0⟩ := a
    rw [alookup]
    by_cases hk : k0 = k
    · subst hk
      simp
    · rw [if_neg hk, ih]
      simp only [List.map_cons, List.mem_cons]
      constructor
      · intro h hmem
        rcases hmem with h1 | h1
        · exact hk h1.symm
        · exact h h1
      · intro h h1
        exact h (Or.inr h1)

theorem alookup_keymap {α : Type} (f : Nat → α) (l : List Nat) (k : Nat) :
    alookup (l.map fun s => (s, f s)) k = if k ∈ l then some (f k) else none := by
  induction l with
  | nil => simp [alookup]
  | cons a t ih =>
    rw [List.map_cons, alookup]
    by_cases hk : a = k
    · subst hk
      simp
    · rw [if_neg hk, ih]
      by_cases hm : k ∈ t
      · rw [if_pos hm, if_pos (by simp [hm])]
      · rw [if_neg hm, if_neg ?_]
        simp only [List.mem_cons]
        push_neg
        exact ⟨fun h => hk h.symm, hm⟩

theorem alookup_append {α : Type} (d₁ d₂ : List (Nat × α)) (k : Nat) :
    alookup (d₁ ++ d₂) k
      = match alookup d₁ k with
        | some v => some v
        | none => alookup d₂ k := by
  induction d₁ with
  | nil => simp [alookup]
  | cons a t ih =>
    obtain ⟨k0, v0⟩ := a
    rw [List.cons_append, alookup, alookup]
    by_cases hk : k0 = k
    · rw [if_pos hk, if_pos hk]
    · rw [if_neg hk, if_neg hk]
      exact ih

theorem ainsert_eq_append {α : Type} {d : List (Nat × α)} {k : Nat} {v : α}
    (h : alookup d k = none) : ainsert d k v = d ++ [(k, v)] := by
  induction d with
  | nil => rfl
  | cons a t ih =>
    obtain ⟨k0, v0⟩ := a
    rw [alookup] at h
    by_cases hk : k0 = k
    · rw [if_pos hk] at h
      exact absurd h (by simp)
    · rw [if_neg hk] at h
      rw [ainsert, if_neg hk, List.cons_append]
      congr 1
      exact ih h

theorem alookup_ainsert {α : Type} (d : List (Nat × α)) (k : Nat) (v : α) (k' : Nat) :
    alookup (ainsert d k v) k' = if k = k' then some v else alookup d k' := by
  induction d with
  | nil => simp [ainsert, alookup]
  | cons a t ih =>
    obtain ⟨k0, v0⟩ := a
    rw [ainsert]
    by_cases hk : k0 = k
    · subst hk
      rw [if_pos rfl, alookup, alookup]
      by_cases hk' : k0 = k'
      · rw [if_pos hk', if_pos hk']
      · rw [if_neg hk', if_neg hk', if_neg hk']
    · rw [if_neg hk, alookup, alookup]
      by_cases hk' : k0 = k'
      · rw [if_pos hk', if_pos hk', if_neg (fun h : k = k' => hk (by omega))]
      · rw [if_neg hk', if_neg hk']
        exact ih

theorem alookup_aupdate {α : Type} :
    ∀ (d₂ d₁ : List (Nat × α)), (d₂.map Prod.fst).Nodup → ∀ k,
      (∀ v, alookup d₂ k = some v → alookup (aupdate d₁ d₂) k = some v) ∧
      (alookup d₂ k = none → alookup (aupdate d₁ d₂) k = alookup d₁ k) := by
  intro d₂
  induction d₂ with
  | nil =>
    intro d₁ _ k
    exact ⟨fun v hv => by simp [alookup] at hv, fun _ => rfl⟩
  | cons a t ih =>
    intro d₁ hnodup k
    rw [List.map_cons, List.nodup_cons] at hnodup
    have haup : aupdate d₁ (a :: t) = aupdate (ainsert d₁ a.1 a.2) t := rfl
    constructor
    · intro v hv
      rw [alookup] at hv
      by_cases hk : a.1 = k
      · rw [if_pos hk] at hv
        have hnone : alookup t k = none := by
          rw [alookup_eq_none_iff, ← hk]
          exact hnodup.1
        rw [haup, (ih (ainsert d₁ a.1 a.2) hnodup.2 k).2 hnone,
          alookup_ainsert, if_pos hk]
        exact hv
      · rw [if_neg hk] at hv
        rw [haup]
        exact (ih (ainsert d₁ a.1 a.2) hnodup.2 k).1 v hv
    · intro hnone
      rw [alookup] at hnone
      by_cases hk : a.1 = k
      · simp [hk] at hnone
      · rw [if_neg hk] at hnone
        rw [haup, (ih (ainsert d₁ a.1 a.2) hnodup.2 k).2 hnone,
          alookup_ainsert, if_neg hk]

theorem foldl_max_const {L : Nat} :
    ∀ (l : List Nat), (∀ x ∈ l, x = L) → ∀ acc, acc ≤ L → l ≠ [] →
      l.foldl max acc = L := by
  intro l
  induction l with
  | nil => intro _ _ _ h; exact absurd rfl h
  | cons a t ih =>
    intro hall acc hacc _
    have ha : a = L := hall a (by simp)
    subst ha
    rw [List.foldl_cons, Nat.max_eq_right hacc]
    by_cases ht : t = []
    · subst ht; rfl
    · exact ih (fun x hx => hall x (by simp [hx])) a (Nat.le_refl a) ht

theorem allSome_map_some {α : Type} (l : List α) : allSome (l.map some) = some l := by
  induction l with
  | nil => rfl
  | cons a t ih => rw [List.map_cons, allSome, ih]; rfl

theorem getD_take {α : Type} (d : α) {l : List α} {n i : Nat} (h : i < n) :
    (l.take n).getD i d = l.getD i d := by
  by_cases hl : i < l.length
  · rw [List.getD_eq_getElem _ _ (by simp [List.length_take]; omega),
      List.getD_eq_getElem _ _ hl]
    simp [List.getElem_take]
  · rw [List.getD_eq_default _ _ (by simp [List.length_take]; omega),
      List.getD_eq_default _ _ (by omega)]

/-- Row and column structure of generate_ec_fragments on a nonempty
rectangular chunk list, given that the symbol encoder extends each message
by E symbols. -/
theorem generate_ec_fragments_parts {frags : List (List Nat)} {k L E : Nat}
    {enc : List Nat → List Nat}
    (hk : frags.length = k) (hR : Rect frags L) (hk1 : 0 < k) (hL1 : 0 < L)
    (hlen : ∀ msg, (enc msg).length = msg.length + E) :
    (generate_ec_fragments enc frags).length = k + E ∧
    Rect (generate_ec_fragments enc frags) L ∧
    pyZip (generate_ec_fragments enc frags) = (pyZip frags).map enc := by
  have hfne : frags ≠ [] := by
    intro h
    rw [h] at hk
    simp at hk
    omega
  have hcols_len : (pyZip frags).length = L := pyZip_length hfne hR
  have hcols_rect : Rect (pyZip frags) k := by
    have := pyZip_rect hfne hR
    rwa [hk] at this
  have hXlen : ((pyZip frags).map enc).length = L := by
    rw [List.length_map, hcols_len]
  have hXne : (pyZip frags).map enc ≠ [] := by
    intro h
    rw [h] at hXlen
    simp at hXlen
    omega
  have hXrect : Rect ((pyZip frags).map enc) (k + E) := by
    intro r hr
    rcases List.mem_map.mp hr with ⟨c, hc, rfl⟩
    rw [hlen c, hcols_rect c hc]
  refine ⟨?_, ?_, ?_⟩
  · unfold generate_ec_fragments
    rw [pyZip_length hXne hXrect]
  · unfold generate_ec_fragments
    have := pyZip_rect hXne hXrect
    rwa [hXlen] at this
  · unfold generate_ec_fragments
    exact pyZip_pyZip hXne hXrect (by omega)

/-- The first k rows of the extended fragment list are the original data
chunks when the symbol encoder is systematic. -/
theorem generate_ec_fragments_take {frags : List (List Nat)} {k L E : Nat}
    {enc : List Nat → List Nat}
    (hk : frags.length = k) (hR : Rect frags L) (hk1 : 0 < k) (hL1 : 0 < L)
    (hlen : ∀ msg, (enc msg).length = msg.length + E)
    (hsys : ∀ msg, (enc msg).take msg.length = msg) :
    (generate_ec_fragments enc frags).take k = frags := by
  obtain ⟨hflen, hfrect, hfcols⟩ :=
    generate_ec_fragments_parts hk hR hk1 hL1 hlen
  have hfne : frags ≠ [] := by
    intro h
    rw [h] at hk
    simp at hk
    omega
  have hcols_len : (pyZip frags).length = L := pyZip_length hfne hR
  have hcols_rect : Rect (pyZip frags) k := by
    have := pyZip_rect hfne hR
    rwa [hk] at this
  have hgne : generate_ec_fragments enc frags ≠ [] := by
    intro h
    rw [h] at hflen
    simp at hflen
    omega
  apply mat_ext_getD
  · rw [List.length_take, hflen, hk]
    exact Nat.min_eq_left (by omega)
  · intro i hi
    rw [List.length_take, hflen] at hi
    have hik : i < k := lt_of_lt_of_le hi (min_le_left _ _)
    rw [getD_take ([] : List Nat) hik]
    have h1 : (generate_ec_fragments enc frags).getD i [] ∈
        generate_ec_fragments enc frags :=
      getD_mem_of_lt (by rw [hflen]; omega)
    rw [hfrect _ h1]
    exact (hR _ (getD_mem_of_lt (by omega))).symm
  · intro i j hi hj
    rw [List.length_take, hflen] at hi
    have hik : i < k := lt_of_lt_of_le hi (min_le_left _ _)
    rw [getD_take ([] : List Nat) hik] at hj ⊢
    have h1 : (generate_ec_fragments enc frags).getD i [] ∈
        generate_ec_fragments enc frags :=
      getD_mem_of_lt (by rw [hflen]; omega)
    have hjL : j < L := by
      rwa [hfrect _ h1] at hj
    have hcolget : ((pyZip (generate_ec_fragments enc frags)).getD j []).getD i 0
        = ((generate_ec_fragments enc frags).getD i []).getD j 0 :=
      pyZip_getD hgne hfrect (by rw [hflen]; omega) hjL
    rw [← hcolget, hfcols]
    have hjmap : j < ((pyZip frags).map enc).length := by
      rw [List.length_map, hcols_len]
      omega
    have hjcols : j < (pyZip frags).length := by
      rw [hcols_len]
      omega
    have hmapget : ((pyZip frags).map enc).getD j [] = enc ((pyZip frags).getD j []) := by
      rw [List.getD_eq_getElem ((pyZip frags).map enc) [] hjmap,
        List.getElem_map, List.getD_eq_getElem (pyZip frags) [] hjcols]
    rw [hmapget]
    have hmsg : ((pyZip frags).getD j []).length = k :=
      hcols_rect _ (getD_mem_of_lt hjcols)
    have hsysj := hsys ((pyZip frags).getD j [])
    rw [hmsg] at hsysj
    have hswap : (enc ((pyZip frags).getD j [])).getD i 0
        = ((enc ((pyZip frags).getD j [])).take k).getD i 0 :=
      (getD_take (0 : Nat) hik).symm
    rw [hswap, hsysj]
    rw [pyZip_getD hfne hR (by omega) hjL]

/-- Existence form of the chunker guarantees needed by the round trip: the
fragment list is nonempty, rectangular with positive row length, and its
concatenation is the input followed by null padding. -/
theorem makeFragments_parts {b : List Nat} {cs : Nat} (hcs : 0 < cs) (hb : b ≠ []) :
    ∃ L p, 0 < L ∧ Rect (makeFragments b cs) L ∧
      0 < (makeFragments b cs).length ∧
      (makeFragments b cs).join = b ++ List.replicate p 0 := by
  unfold makeFragments
  by_cases hle : b.length ≤ cs
  · rw [if_pos hle]
    refine ⟨b.length, 0, ?_, ?_, by simp, by simp⟩
    · cases b
      · exact absurd rfl hb
      · simp
    · intro r hr
      simp at hr
      simp [hr]
  · rw [if_neg hle]
    obtain ⟨h1, h2, h3⟩ :=
      split_file_content_spec hcs b.length b (Nat.le_refl _)
    exact ⟨cs, _, hcs, h2, by rw [h1]; omega, h3⟩

theorem enumFrom_map_pair {α : Type} (g : Nat → List Nat → α) :
    ∀ (l : List (List Nat)) (n : Nat),
      (List.enumFrom n l).map (fun p => g p.1 p.2)
        = (List.range l.length).map fun i => g (n + i) (l.getD i []) := by
  intro l
  induction l with
  | nil => intro n; rfl
  | cons a t ih =>
    intro n
    rw [show List.enumFrom n (a :: t) = (n, a) :: List.enumFrom (n + 1) t from rfl,
      List.map_cons, show (a :: t).length = t.length + 1 from rfl,
      List.range_succ_eq_map, List.map_cons, List.map_map, ih (n + 1)]
    congr 1
    apply List.map_congr_left
    intro i _
    show g (n + 1 + i) (t.getD i []) = g (n + (i + 1)) ((a :: t).getD (i + 1) [])
    rw [show n + 1 + i = n + (i + 1) by omega]
    rfl

theorem enum_map_pair {α : Type} (g : Nat → List Nat → α) (l : List (List Nat)) :
    l.enum.map (fun p => g p.1 p.2)
      = (List.range l.length).map fun i => g i (l.getD i []) := by
  rw [show l.enum = List.enumFrom 0 l from rfl, enumFrom_map_pair g l 0]
  apply List.map_congr_left
  intro i _
  rw [Nat.zero_add]

/-- Dict holding the frames of the surviving sequence numbers, as the
claims describe deleting a subset of the QR codes. -/
def keptDict (mk : Nat → QRContent) (keep : Nat → Bool) (total : Nat) : QRDict :=
  ((List.range total).filter keep).map fun s => (s, mk s)

/-- Dropped sequence numbers, in ascending order. -/
def droppedList (keep : Nat → Bool) (total : Nat) : List Nat :=
  (List.range total).filter fun s => !keep s

/-- Fragment rows completed with null rows at the dropped positions. -/
def maskedRows (full : List (List Nat)) (keep : Nat → Bool) (total L : Nat) :
    List (List Nat) :=
  (List.range total).map fun s =>
    if keep s then full.getD s [] else List.replicate L 0

theorem keymap_map_fst {α : Type} (f : Nat → α) (l : List Nat) :
    (l.map fun s => (s, f s)).map Prod.fst = l := by
  rw [List.map_map]
  exact List.map_id l

/-- Evaluation of recover_payloads on the dict of surviving frames of a
rectangular fragment list. -/
theorem recover_payloads_keep_eq
    (rsDecode : Nat → List Nat → List Nat → Option (List Nat))
    {full : List (List Nat)} {total L E : Nat} {mk : Nat → QRContent}
    {keep : Nat → Bool}
    (htot : full.length = total) (hR : Rect full L)
    (hkeepne : (List.range total).filter keep ≠ [])
    (hmk : ∀ s, (mk s).doc_fragment = full.getD s []) :
    recover_payloads rsDecode (keptDict mk keep total) total E
      = if 0 < E then
          match allSome ((pyZip (maskedRows full keep total L)).map fun col =>
              rsDecode E col (droppedList keep total)) with
          | none => .error .UnrecoverableLoss
          | some fixedSymbols => .ok (pyZip fixedSymbols)
        else .ok (maskedRows full keep total L) := by
  have hdf : (keptDict mk keep total).map (fun p => (p.1, p.2.doc_fragment))
      = ((List.range total).filter keep).map fun s => (s, full.getD s []) := by
    unfold keptDict
    rw [List.map_map]
    apply List.map_congr_left
    intro s _
    show (s, (mk s).doc_fragment) = (s, full.getD s [])
    rw [hmk s]
  have hvalsL : ∀ x ∈ (((List.range total).filter keep).map
      fun s => (s, full.getD s [])).map fun p => p.2.length, x = L := by
    intro x hx
    rw [List.map_map] at hx
    rcases List.mem_map.mp hx with ⟨s, hs, rfl⟩
    have hst : s < total := by
      have := (List.mem_filter.mp hs).1
      exact List.mem_range.mp this
    show (full.getD s []).length = L
    exact hR _ (getD_mem_of_lt (by omega))
  have hmax : ((((List.range total).filter keep).map
      fun s => (s, full.getD s [])).map fun p => p.2.length).foldl max 0 = L := by
    apply foldl_max_const _ hvalsL 0 (Nat.zero_le L)
    intro h
    rw [List.map_map] at h
    exact hkeepne (List.map_eq_nil_iff.mp h)
  have hdrop : (List.range total).filter
      (fun s => (alookup (keptDict mk keep total) s).isNone)
      = droppedList keep total := by
    unfold droppedList
    apply List.filter_congr
    intro s hs
    unfold keptDict
    rw [alookup_keymap]
    by_cases hk : keep s
    · rw [if_pos (List.mem_filter.mpr ⟨hs, hk⟩)]
      simp [hk]
    · rw [if_neg (fun hmem => hk (List.mem_filter.mp hmem).2)]
      simp [hk]
  have hperm : List.Perm (((((List.range total).filter keep).map
        fun s => (s, full.getD s []))
      ++ (droppedList keep total).map fun s => (s, List.replicate L 0)).map
        Prod.fst)
      (List.range total) := by
    rw [List.map_append, keymap_map_fst, keymap_map_fst]
    exact List.filter_append_perm keep (List.range total)
  have hvals : ∀ p ∈ (((List.range total).filter keep).map
        fun s => (s, full.getD s []))
      ++ (droppedList keep total).map fun s => (s, List.replicate L 0),
      p.2 = (fun s => if keep s then full.getD s [] else List.replicate L 0) p.1 := by
    intro p hp
    rcases List.mem_append.mp hp with hp | hp
    · rcases List.mem_map.mp hp with ⟨s, hs, rfl⟩
      have hk : keep s = true := (List.mem_filter.mp hs).2
      show full.getD s [] = if keep s then full.getD s [] else List.replicate L 0
      rw [if_pos hk]
    · rcases List.mem_map.mp hp with ⟨s, hs, rfl⟩
      have hk : (!keep s) = true := (List.mem_filter.mp hs).2
      show List.replicate L 0 = if keep s then full.getD s [] else List.replicate L 0
      rw [if_neg (by simpa using hk)]
  have hsorted : (List.insertionSort keyLe ((((List.range total).filter keep).map
        fun s => (s, full.getD s []))
      ++ (droppedList keep total).map fun s => (s, List.replicate L 0))).map
        (fun p => p.2)
      = maskedRows full keep total L := by
    rw [insertionSort_keymap
      (f := fun s => if keep s then full.getD s [] else List.replicate L 0)
      hperm hvals]
    unfold maskedRows
    rw [List.map_map]
    rfl
  show recover_payloads rsDecode (keptDict mk keep total) total E = _
  simp only [recover_payloads]
  rw [hdf, hmax, hdrop, hsorted]

theorem range_map_getD (l : List (List Nat)) :
    ((List.range l.length).map fun i => l.getD i []) = l := by
  have h1 := enum_map_pair (fun _ x => x) l
  have h2 : l.enum.map Prod.snd = l := List.enum_map_snd l
  rw [← h1]
  exact h2

theorem pairwise_ne_enum {α : Type} (l : List α) :
    l.enum.Pairwise fun a b => a.1 ≠ b.1 := by
  apply List.pairwise_map.mp
  rw [List.enum_map_fst]
  exact (List.pairwise_lt_range l.length).imp fun h => Nat.ne_of_lt h

/-- When every decode parses and the sequence numbers are distinct,
parse_qr_contents appends each frame to the accumulator in order. -/
theorem parse_qr_contents_map_ok (parse : List Nat → Option QRContent)
    (dump : QRContent → List Nat) :
    ∀ (cs : List QRContent), (∀ c ∈ cs, parse (dump c) = some c) →
      (cs.Pairwise fun a b => a.meta.sequence_number ≠ b.meta.sequence_number) →
      ∀ acc, (∀ c ∈ cs, alookup acc c.meta.sequence_number = none) →
        parse_qr_contents parse (cs.map dump) acc
          = .ok (acc ++ cs.map fun c => (c.meta.sequence_number, c)) := by
  intro cs
  induction cs with
  | nil =>
    intro _ _ acc _
    simp [parse_qr_contents]
  | cons c rest ih =>
    intro hp hseq acc hacc
    rw [List.map_cons, parse_qr_contents, hp c (by simp)]
    show parse_qr_contents parse (rest.map dump)
        (ainsert acc c.meta.sequence_number c) = _
    rw [ainsert_eq_append (hacc c (by simp))]
    cases hseq with
    | cons hhead htail =>
      rw [ih (fun x hx => hp x (by simp [hx])) htail (acc ++ [(c.meta.sequence_number, c)])
        ?_]
      · rw [List.map_cons, List.append_assoc]
        rfl
      · intro x hx
        rw [alookup_append, hacc x (by simp [hx])]
        show alookup [(c.meta.sequence_number, c)] x.meta.sequence_number = none
        rw [alookup, if_neg (hhead x hx), alookup]

/-- A single unparseable decode aborts parse_qr_contents with BadFrame. -/
theorem parse_qr_contents_fails (parse : List Nat → Option QRContent) :
    ∀ (datas : List (List Nat)) (acc : QRDict),
      (∃ d ∈ datas, parse d = none) →
      parse_qr_contents parse datas acc = .error .BadFrame := by
  intro datas
  induction datas with
  | nil =>
    intro acc h
    rcases h with ⟨d, hd, _⟩
    simp at hd
  | cons d rest ih =>
    intro acc h
    rw [parse_qr_contents]
    rcases h with ⟨x, hx, hxnone⟩
    rcases List.mem_cons.mp hx with rfl | hx
    · rw [hxnone]
    · cases hparse : parse d with
      | none => rfl
      | some content => exact ih _ ⟨x, hx, hxnone⟩

/-- Reduction of reconstruct_document_payload on a nonempty dict. -/
theorem reconstruct_cons {μ : Type} (ext : ExtCollab μ) (s0 : Nat) (c0 : QRContent)
    (rest : QRDict) :
    reconstruct_document_payload ext ((s0, c0) :: rest)
      = (if ((s0, c0) :: rest).length
            < c0.meta.total_qr_codes - c0.meta.num_ecc then
          .error .InsufficientCodes
        else
          match recover_payloads ext.rsDecode ((s0, c0) :: rest)
              c0.meta.total_qr_codes c0.meta.num_ecc with
          | .error e => .error e
          | .ok sortedPayloads =>
            if ext.shake256len8 (pyStrip0 sortedPayloads.join)
                ≠ c0.meta.document_hash then
              .error .ChecksumMismatch
            else
              match ext.decompress sortedPayloads.join with
              | none => .error .Corrupt
              | some inflated =>
                match ext.parseDoc inflated with
                | none => .error .Corrupt
                | some d => .ok d) := rfl

/-- Frame carried by the QR with sequence number s on a successful encode. -/
def mkEnc {μ : Type} (ext : ExtCollab μ) (doc : DocumentPayload μ) (ecc : Bool)
    (cap : Nat) (s : Nat) : QRContent :=
  ⟨⟨documentHash ext doc, s, (finalFragments ext doc ecc cap).length,
    numEcc ecc (numFragments ext doc cap)⟩,
    (finalFragments ext doc ecc cap).getD s []⟩

/-- Frame map recovered when every QR of a successful encode is scanned
and parsed. -/
def encodedDict {μ : Type} (ext : ExtCollab μ) (doc : DocumentPayload μ)
    (ecc : Bool) (cap : Nat) : QRDict :=
  (List.range (finalFragments ext doc ecc cap).length).map fun s =>
    (s, mkEnc ext doc ecc cap s)

/-- Parsing the generated payload list in order yields exactly the encoded
frame map. -/
theorem parse_qrPayloadList {μ : Type} (ext : ExtCollab μ) (doc : DocumentPayload μ)
    (ecc : Bool) (cap : Nat)
    (hframe : ∀ c, ext.parseQRb85 (ext.dumpQRb85 c) = some c) :
    parse_qr_contents ext.parseQRb85 (qrPayloadList ext doc ecc cap) []
      = .ok (encodedDict ext doc ecc cap) := by
  have hq : qrPayloadList ext doc ecc cap
      = ((finalFragments ext doc ecc cap).enum.map fun p =>
          QRContent.mk
            ⟨documentHash ext doc, p.1, (finalFragments ext doc ecc cap).length,
              numEcc ecc (numFragments ext doc cap)⟩ p.2).map ext.dumpQRb85 := by
    unfold qrPayloadList
    rw [List.map_map]
    rfl
  rw [hq]
  have hseq : ((finalFragments ext doc ecc cap).enum.map fun p =>
      QRContent.mk
        ⟨documentHash ext doc, p.1, (finalFragments ext doc ecc cap).length,
          numEcc ecc (numFragments ext doc cap)⟩ p.2).Pairwise
      (fun a b => a.meta.sequence_number ≠ b.meta.sequence_number) := by
    apply List.Pairwise.map
    · intro a b hab
      exact hab
    · exact pairwise_ne_enum (finalFragments ext doc ecc cap)
  rw [parse_qr_contents_map_ok ext.parseQRb85 ext.dumpQRb85 _
    (fun c _ => hframe c) hseq [] (fun c _ => rfl)]
  rw [List.nil_append, List.map_map]
  exact congrArg Except.ok (enum_map_pair (fun i frag => (i,
    QRContent.mk
      ⟨documentHash ext doc, i, (finalFragments ext doc ecc cap).length,
        numEcc ecc (numFragments ext doc cap)⟩ frag))
    (finalFragments ext doc ecc cap))

theorem encodedDict_eq_keptDict {μ : Type} (ext : ExtCollab μ)
    (doc : DocumentPayload μ) (ecc : Bool) (cap : Nat) :
    encodedDict ext doc ecc cap
      = keptDict (mkEnc ext doc ecc cap) (fun _ => true)
          (finalFragments ext doc ecc cap).length := by
  unfold encodedDict keptDict
  rw [List.filter_true]

theorem maskedRows_all_true {full : List (List Nat)} {L : Nat} :
    maskedRows full (fun _ => true) full.length L = full := by
  unfold maskedRows
  have h : ((List.range full.length).map fun s =>
      if (fun _ : Nat => true) s then full.getD s [] else List.replicate L 0)
      = (List.range full.length).map fun s => full.getD s [] := by
    apply List.map_congr_left
    intro s _
    rfl
  rw [h, range_map_getD]

theorem droppedList_all_true (total : Nat) :
    droppedList (fun _ => true) total = [] := by
  unfold droppedList
  simp

/-- Fragment recovery on the complete encoded frame map returns exactly the
data chunks. -/
theorem recover_encodedDict {μ : Type} (ext : ExtCollab μ) (doc : DocumentPayload μ)
    (ecc : Bool) (cap : Nat)
    (hcap : 0 < chunkSize cap) (htb : compressedBytes ext doc ≠ [])
    (hrslen : ∀ E msg, (ext.rsEncode E msg).length = msg.length + E)
    (hrs0 : ∀ E msg, ext.rsDecode E (ext.rsEncode E msg) [] = some msg) :
    recover_payloads ext.rsDecode (encodedDict ext doc ecc cap)
      (finalFragments ext doc ecc cap).length
      (numEcc ecc (numFragments ext doc cap))
      = .ok (makeFragments (compressedBytes ext doc) (chunkSize cap)) := by
  obtain ⟨L, p, hL, hRect, hkpos, hjoin⟩ := makeFragments_parts hcap htb
  have hfne : makeFragments (compressedBytes ext doc) (chunkSize cap) ≠ [] := by
    intro h
    rw [h] at hkpos
    simp at hkpos
  have hfull0 : finalFragments ext doc ecc cap
      = if 0 < numEcc ecc (numFragments ext doc cap) then
          generate_ec_fragments
            (ext.rsEncode (numEcc ecc (numFragments ext doc cap)))
            (makeFragments (compressedBytes ext doc) (chunkSize cap))
        else makeFragments (compressedBytes ext doc) (chunkSize cap) := rfl
  by_cases hE : 0 < numEcc ecc (numFragments ext doc cap)
  · have hfull : finalFragments ext doc ecc cap
        = generate_ec_fragments
            (ext.rsEncode (numEcc ecc (numFragments ext doc cap)))
            (makeFragments (compressedBytes ext doc) (chunkSize cap)) := by
      rw [hfull0, if_pos hE]
    obtain ⟨hflen, hfrect, hfcols⟩ := generate_ec_fragments_parts rfl hRect hkpos hL
      (hrslen (numEcc ecc (numFragments ext doc cap)))
    rw [encodedDict_eq_keptDict,
      recover_payloads_keep_eq ext.rsDecode (L := L) rfl
        (by rw [hfull]; exact hfrect)
        (by
          rw [List.filter_true]
          intro h
          have := List.length_eq_zero.mpr h
          rw [List.length_range, hfull, hflen] at this
          omega)
        (fun s => rfl),
      if_pos hE]
    rw [hfull, maskedRows_all_true, droppedList_all_true, hfcols, List.map_map]
    have hmapped : ((pyZip (makeFragments (compressedBytes ext doc) (chunkSize cap))).map
        ((fun col => ext.rsDecode (numEcc ecc (numFragments ext doc cap)) col [])
          ∘ ext.rsEncode (numEcc ecc (numFragments ext doc cap))))
        = (pyZip (makeFragments (compressedBytes ext doc) (chunkSize cap))).map some := by
      apply List.map_congr_left
      intro c _
      exact hrs0 _ c
    rw [hmapped, allSome_map_some]
    show Except.ok
        (pyZip (pyZip (makeFragments (compressedBytes ext doc) (chunkSize cap)))) = _
    rw [pyZip_pyZip hfne hRect hL]
  · have hfull : finalFragments ext doc ecc cap
        = makeFragments (compressedBytes ext doc) (chunkSize cap) := by
      rw [hfull0, if_neg hE]
    rw [encodedDict_eq_keptDict,
      recover_payloads_keep_eq ext.rsDecode (L := L) rfl
        (by rw [hfull]; exact hRect)
        (by
          rw [List.filter_true]
          intro h
          have := List.length_eq_zero.mpr h
          rw [List.length_range, hfull] at this
          omega)
        (fun s => rfl),
      if_neg hE]
    rw [hfull, maskedRows_all_true]

/-- Reconstructing from the complete encoded frame map returns the original
document, under the documented contracts of the external collaborators. -/
theorem reconstruct_encodedDict {μ : Type} (ext : ExtCollab μ)
    (doc : DocumentPayload μ) (ecc : Bool) (cap : Nat)
    (hcap : 0 < chunkSize cap) (htb : compressedBytes ext doc ≠ [])
    (hdoc : ext.parseDoc (ext.serializeDoc doc) = some doc)
    (hz : ∀ n, ext.decompress (compressedBytes ext doc ++ List.replicate n 0)
        = some (ext.serializeDoc doc))
    (hrslen : ∀ E msg, (ext.rsEncode E msg).length = msg.length + E)
    (hrs0 : ∀ E msg, ext.rsDecode E (ext.rsEncode E msg) [] = some msg) :
    reconstruct_document_payload ext (encodedDict ext doc ecc cap) = .ok doc := by
  obtain ⟨L, p, hL, hRect, hkpos, hjoin⟩ := makeFragments_parts hcap htb
  have hrec := recover_encodedDict ext doc ecc cap hcap htb hrslen hrs0
  have hkle : (makeFragments (compressedBytes ext doc) (chunkSize cap)).length
      ≤ (finalFragments ext doc ecc cap).length := by
    have hfull0 : finalFragments ext doc ecc cap
        = if 0 < numEcc ecc (numFragments ext doc cap) then
            generate_ec_fragments
              (ext.rsEncode (numEcc ecc (numFragments ext doc cap)))
              (makeFragments (compressedBytes ext doc) (chunkSize cap))
          else makeFragments (compressedBytes ext doc) (chunkSize cap) := rfl
    by_cases hE : 0 < numEcc ecc (numFragments ext doc cap)
    · obtain ⟨hflen, _, _⟩ := generate_ec_fragments_parts rfl hRect hkpos hL
        (hrslen (numEcc ecc (numFragments ext doc cap)))
      rw [hfull0, if_pos hE, hflen]
      omega
    · rw [hfull0, if_neg hE]
  have htpos : 0 < (finalFragments ext doc ecc cap).length := by omega
  obtain ⟨m, hm⟩ : ∃ m, (finalFragments ext doc ecc cap).length = m + 1 :=
    ⟨(finalFragments ext doc ecc cap).length - 1, by omega⟩
  have hcons : encodedDict ext doc ecc cap
      = (0, mkEnc ext doc ecc cap 0)
        :: (((List.range m).map Nat.succ).map fun s => (s, mkEnc ext doc ecc cap s)) := by
    unfold encodedDict
    rw [hm, List.range_succ_eq_map, List.map_cons, List.map_map]
  have hdictlen : ((0, mkEnc ext doc ecc cap 0)
        :: (((List.range m).map Nat.succ).map fun s => (s, mkEnc ext doc ecc cap s))).length
      = (finalFragments ext doc ecc cap).length := by
    simp [hm]
  rw [hcons, reconstruct_cons]
  have hmt : (mkEnc ext doc ecc cap 0).meta.total_qr_codes
      = (finalFragments ext doc ecc cap).length := rfl
  have hme : (mkEnc ext doc ecc cap 0).meta.num_ecc
      = numEcc ecc (numFragments ext doc cap) := rfl
  have hmh : (mkEnc ext doc ecc cap 0).meta.document_hash
      = documentHash ext doc := rfl
  rw [hmt, hme, hmh, hdictlen, if_neg (by omega), ← hcons, hrec]
  show (if ext.shake256len8
        (pyStrip0 (makeFragments (compressedBytes ext doc) (chunkSize cap)).join)
      ≠ documentHash ext doc then (.error .ChecksumMismatch : Except QRDecodeError (DocumentPayload μ))
    else
      match ext.decompress
          (makeFragments (compressedBytes ext doc) (chunkSize cap)).join with
      | none => .error .Corrupt
      | some inflated =>
        match ext.parseDoc inflated with
        | none => .error .Corrupt
        | some d => .ok d) = .ok doc
  have hhash : ext.shake256len8
      (pyStrip0 (makeFragments (compressedBytes ext doc) (chunkSize cap)).join)
      = documentHash ext doc := by
    rw [hjoin, pyStrip0_append_zeros]
    rfl
  rw [if_neg (by rw [hhash]; simp), hjoin, hz p]
  show (match ext.parseDoc (ext.serializeDoc doc) with
    | none => (.error .Corrupt : Except QRDecodeError (DocumentPayload μ))
    | some d => .ok d) = .ok doc
  rw [hdoc]

/-- Bytes received by the symbol decoder for one column: the encoded column
with the erased positions replaced by 0x00, as the wrapper builds it from
null rows. -/
def eraseMask (c : List Nat) (dropped : List Nat) : List Nat :=
  (List.range c.length).map fun i => if dropped.contains i then 0 else c.getD i 0

/-- Concrete collaborator instances used to witness the contract-carrying
theorems on explicit inputs: an invertible document serialization, a
self-delimiting compressor that tolerates trailing null padding, a toy
digest, an invertible frame dump, and a systematic symbol codec able to
correct one erasure on two-symbol codewords. -/
def testSerializeDoc (d : DocumentPayload Nat) : List Nat :=
  (match d.metadata with
    | none => 0
    | some m => m + 1) :: d.content.toList.map Char.toNat

def testParseDoc : List Nat → Option (DocumentPayload Nat)
  | [] => none
  | x :: rest =>
    some ⟨String.mk (rest.map Char.ofNat), if x = 0 then none else some (x - 1)⟩

def testCompress (b : List Nat) : List Nat := b.map (· + 1)

def testDecompress (c : List Nat) : Option (List Nat) :=
  some ((c.takeWhile (fun x => x != 0)).map (· - 1))

def testShake (b : List Nat) : Nat := b.foldl (fun a x => a * 1000 + x + 1) 0

def testDumpQR (c : QRContent) : List Nat :=
  c.meta.document_hash :: c.meta.sequence_number :: c.meta.total_qr_codes ::
    c.meta.num_ecc :: c.doc_fragment.length :: c.doc_fragment

def testParseQR : List Nat → Option QRContent
  | h :: s :: t :: n :: len :: rest =>
    if rest.length = len then some ⟨⟨h, s, t, n⟩, rest⟩ else none
  | _ => none

def testRsEncode (e : Nat) (msg : List Nat) : List Nat :=
  msg ++ List.replicate e (msg.headD 0)

def testRsDecode (e : Nat) (col : List Nat) (dropped : List Nat) :
    Option (List Nat) :=
  if dropped = [] then some (col.take (col.length - e))
  else
    match e, col with
    | 1, [a, b] => if dropped.contains 0 then some [b] else some [a]
    | _, _ => none

def TestExt : ExtCollab Nat :=
  ⟨testSerializeDoc, testParseDoc, testCompress, testDecompress, testShake,
    testDumpQR, testParseQR, testRsEncode, testRsDecode⟩

theorem testParse_serialize (d : DocumentPayload Nat) :
    testParseDoc (testSerializeDoc d) = some d := by
  obtain ⟨c, m⟩ := d
  have hstr : (c.toList.map Char.toNat).map Char.ofNat = c.toList := by
    rw [List.map_map]
    have h : c.toList.map (Char.ofNat ∘ Char.toNat) = c.toList.map id := by
      apply List.map_congr_left
      intro ch _
      exact Char.ofNat_toNat ch
    rw [h, List.map_id]
  cases m with
  | none =>
    show some (⟨String.mk ((c.toList.map Char.toNat).map Char.ofNat),
        if (0 : Nat) = 0 then none else some (0 - 1)⟩ : DocumentPayload Nat)
      = some ⟨c, none⟩
    rw [hstr]
    rfl
  | some m =>
    show some (⟨String.mk ((c.toList.map Char.toNat).map Char.ofNat),
        if m + 1 = 0 then none else some (m + 1 - 1)⟩ : DocumentPayload Nat)
      = some ⟨c, some m⟩
    rw [hstr]
    simp

theorem takeWhile_ne_zero_replicate (n : Nat) :
    (List.replicate n 0).takeWhile (fun x => x != 0) = ([] : List Nat) := by
  cases n with
  | zero => rfl
  | succ n => rw [List.replicate_succ, List.takeWhile_cons]; rfl

theorem testDecompress_spec (b : List Nat) (n : Nat) :
    testDecompress (testCompress b ++ List.replicate n 0) = some b := by
  unfold testDecompress testCompress
  have h1 : ((b.map (· + 1)) ++ List.replicate n 0).takeWhile (fun x => x != 0)
      = b.map (· + 1) := by
    induction b with
    | nil =>
      rw [List.map_nil, List.nil_append]
      exact takeWhile_ne_zero_replicate n
    | cons a t ih =>
      rw [List.map_cons, List.cons_append, List.takeWhile_cons]
      have hb : ((a + 1) != 0) = true := by simp
      rw [hb, if_pos rfl, ih]
  rw [h1, List.map_map]
  have h2 : b.map ((· - 1) ∘ (· + 1)) = b.map id := by
    apply List.map_congr_left
    intro x _
    simp
  rw [h2, List.map_id]

theorem testFrame_roundtrip (c : QRContent) :
    testParseQR (testDumpQR c) = some c := by
  obtain ⟨⟨h, s, t, n⟩, frag⟩ := c
  show testParseQR (h :: s :: t :: n :: frag.length :: frag) = _
  unfold testParseQR
  simp

theorem testRs_len (e : Nat) (msg : List Nat) :
    (testRsEncode e msg).length = msg.length + e := by
  simp [testRsEncode]

theorem testRs_systematic (e : Nat) (msg : List Nat) :
    (testRsEncode e msg).take msg.length = msg := by
  unfold testRsEncode
  exact List.take_left msg _

theorem testRs_roundtrip (e : Nat) (msg : List Nat) :
    testRsDecode e (testRsEncode e msg) [] = some msg := by
  unfold testRsDecode testRsEncode
  rw [if_pos rfl]
  congr 1
  rw [List.length_append, List.length_replicate,
    show msg.length + e - e = msg.length by omega, List.take_left]

theorem getD_map {α β : Type} (d : α) (d' : β) (f : α → β) (l : List α) (j : Nat)
    (h : j < l.length) : (l.map f).getD j d' = f (l.getD j d) := by
  rw [List.getD_eq_getElem _ _ (by simpa using h), List.getElem_map,
    List.getD_eq_getElem _ _ h]

theorem getD_range_map {α : Type} (F : Nat → α) (d : α) {n i : Nat} (h : i < n) :
    ((List.range n).map F).getD i d = F i := by
  rw [getD_map 0 d F _ i (by simpa using h), List.getD_eq_getElem _ _ (by simpa using h),
    List.getElem_range]

theorem getD_replicate {α : Type} (a d : α) {n i : Nat} (h : i < n) :
    (List.replicate n a).getD i d = a := by
  rw [List.getD_eq_getElem _ _ (by simpa using h), List.getElem_replicate]

theorem droppedList_contains {keep : Nat → Bool} {total i : Nat} (h : i < total) :
    (droppedList keep total).contains i = !keep i := by
  unfold droppedList
  cases hk : keep i with
  | true =>
    show ((List.range total).filter fun s => !keep s).elem i = false
    rw [← Bool.not_eq_true, List.elem_iff]
    intro hmem
    have := (List.mem_filter.mp hmem).2
    rw [hk] at this
    simp at this
  | false =>
    show ((List.range total).filter fun s => !keep s).elem i = true
    rw [List.elem_iff]
    exact List.mem_filter.mpr ⟨List.mem_range.mpr h, by rw [hk]; rfl⟩

theorem droppedList_pairwise (keep : Nat → Bool) (total : Nat) :
    (droppedList keep total).Pairwise (· < ·) :=
  (List.pairwise_lt_range total).filter _

theorem droppedList_bound {keep : Nat → Bool} {total : Nat} :
    ∀ i ∈ droppedList keep total, i < total := by
  intro i hi
  exact List.mem_range.mp (List.mem_filter.mp hi).1

theorem filter_keep_length (keep : Nat → Bool) (total : Nat) :
    ((List.range total).filter keep).length + (droppedList keep total).length
      = total := by
  have h := (List.filter_append_perm keep (List.range total)).length_eq
  rw [List.length_append, List.length_range] at h
  exact h

/-- Column received by the symbol decoder in the recovery wrapper: the
masked rows transpose to the erasure-masked codeword columns. -/
theorem pyZip_maskedRows {frags : List (List Nat)} {k L E : Nat}
    {enc : List Nat → List Nat} {keep : Nat → Bool}
    (hk : frags.length = k) (hR : Rect frags L) (hk1 : 0 < k) (hL1 : 0 < L)
    (hlen : ∀ msg, (enc msg).length = msg.length + E) :
    pyZip (maskedRows (generate_ec_fragments enc frags) keep (k + E) L)
      = (pyZip frags).map fun c => eraseMask (enc c) (droppedList keep (k + E)) := by
  obtain ⟨hflen, hfrect, hfcols⟩ := generate_ec_fragments_parts hk hR hk1 hL1 hlen
  have hfne : frags ≠ [] := by
    intro h
    rw [h] at hk
    simp at hk
    omega
  have hgne : generate_ec_fragments enc frags ≠ [] := by
    intro h
    rw [h] at hflen
    simp at hflen
    omega
  have hcols_len : (pyZip frags).length = L := pyZip_length hfne hR
  have hcols_rect : Rect (pyZip frags) k := by
    have := pyZip_rect hfne hR
    rwa [hk] at this
  have hrows_len : (maskedRows (generate_ec_fragments enc frags) keep (k + E) L).length
      = k + E := by
    unfold maskedRows
    rw [List.length_map, List.length_range]
  have hrows_rect : Rect (maskedRows (generate_ec_fragments enc frags) keep (k + E) L)
      L := by
    intro r hr
    unfold maskedRows at hr
    rcases List.mem_map.mp hr with ⟨s, hs, rfl⟩
    have hst : s < k + E := List.mem_range.mp hs
    by_cases hks : keep s
    · rw [if_pos hks]
      exact hfrect _ (getD_mem_of_lt (by omega))
    · rw [if_neg hks]
      exact List.length_replicate L 0
  have hrows_ne : maskedRows (generate_ec_fragments enc frags) keep (k + E) L ≠ [] := by
    intro h
    rw [h] at hrows_len
    simp at hrows_len
    omega
  apply mat_ext_getD
  · rw [pyZip_length hrows_ne hrows_rect, List.length_map, hcols_len]
  · intro j hj
    rw [pyZip_length hrows_ne hrows_rect] at hj
    have hjlt : j < (pyZip (maskedRows (generate_ec_fragments enc frags)
        keep (k + E) L)).length := by
      rw [pyZip_length hrows_ne hrows_rect]
      omega
    have hrowj := pyZip_rect hrows_ne hrows_rect _ (getD_mem_of_lt hjlt)
    rw [hrowj, hrows_len,
      getD_map [] [] _ _ j (by rw [hcols_len]; omega)]
    unfold eraseMask
    rw [List.length_map, List.length_range, hlen,
      hcols_rect _ (getD_mem_of_lt (by rw [hcols_len]; omega))]
  · intro j i hj hi
    rw [pyZip_length hrows_ne hrows_rect] at hj
    have hjlt : j < (pyZip (maskedRows (generate_ec_fragments enc frags)
        keep (k + E) L)).length := by
      rw [pyZip_length hrows_ne hrows_rect]
      omega
    have hrowj := pyZip_rect hrows_ne hrows_rect _ (getD_mem_of_lt hjlt)
    rw [hrowj, hrows_len] at hi
    rw [pyZip_getD hrows_ne hrows_rect (by rw [hrows_len]; omega) hj]
    have hcolsj : j < (pyZip frags).length := by
      rw [hcols_len]
      omega
    rw [getD_map [] [] _ _ j hcolsj]
    have hmsglen : ((pyZip frags).getD j []).length = k :=
      hcols_rect _ (getD_mem_of_lt hcolsj)
    unfold eraseMask
    rw [getD_range_map _ _ (by rw [hlen, hmsglen]; omega)]
    unfold maskedRows
    rw [getD_range_map _ _ (by omega : i < k + E)]
    rw [droppedList_contains (by omega : i < k + E)]
    cases hki : keep i with
    | true =>
      show ((generate_ec_fragments enc frags).getD i []).getD j 0
        = (enc ((pyZip frags).getD j [])).getD i 0
      rw [← pyZip_getD hgne hfrect (by rw [hflen]; omega) hj, hfcols,
        getD_map [] [] _ _ j hcolsj]
    | false =>
      show (List.replicate L 0).getD j 0 = 0
      exact getD_replicate 0 0 (by omega)

/-- The toy symbol codec corrects any single erasure on its length-2
codewords over one-symbol messages. -/
theorem testRs_erasure_contract :
    ∀ msg : List Nat, msg.length = 1 →
      ∀ dropped : List Nat, dropped.Pairwise (· < ·) →
        (∀ i ∈ dropped, i < 1 + 1) → dropped.length ≤ 1 →
        testRsDecode 1 (eraseMask (testRsEncode 1 msg) dropped) dropped
          = some msg := by
  intro msg hmsg dropped hpair hbound hlen
  obtain ⟨a, rfl⟩ : ∃ a, msg = [a] := by
    cases msg with
    | nil => simp at hmsg
    | cons a t =>
      cases t with
      | nil => exact ⟨a, rfl⟩
      | cons b u => simp at hmsg
  cases dropped with
  | nil =>
    show testRsDecode 1 (eraseMask [a, a] []) [] = some [a]
    have hmask : eraseMask [a, a] [] = [a, a] := rfl
    rw [hmask]
    show some ([a, a].take 1) = some [a]
    rfl
  | cons d t =>
    cases t with
    | cons d2 u => simp at hlen
    | nil =>
      have hd : d < 2 := hbound d (by simp)
      rcases (by omega : d = 0 ∨ d = 1) with rfl | rfl
      · show testRsDecode 1 (eraseMask [a, a] [0]) [0] = some [a]
        have hmask : eraseMask [a, a] [0] = [0, a] := rfl
        rw [hmask]
        rfl
      · show testRsDecode 1 (eraseMask [a, a] [1]) [1] = some [a]
        have hmask : eraseMask [a, a] [1] = [a, 0] := rfl
        rw [hmask]
        rfl

/-- recover_payloads never reports insufficiency; that check lives in
reconstruct_document_payload. -/
theorem recover_payloads_not_insufficient
    (rsDecode : Nat → List Nat → List Nat → Option (List Nat))
    (d : QRDict) (total nEcc : Nat) :
    recover_payloads rsDecode d total nEcc ≠ .error .InsufficientCodes := by
  intro heq
  simp only [recover_payloads] at heq
  split at heq
  · split at heq
    · simp at heq
    · simp at heq
  · simp at heq

/-- Concrete fixtures used by witnesses and counterexamples. -/
def testDocEmpty : DocumentPayload Nat := ⟨"", none⟩

def tb10 : List Nat := [1, 2, 3, 4, 5, 6, 7, 8, 9, 10]

def tc1 : QRContent := ⟨⟨1, 0, 2, 1⟩, [1]⟩

def tc2 : QRContent := ⟨⟨1, 0, 2, 1⟩, [2]⟩

def c2mk (s : Nat) : QRContent :=
  ⟨⟨0, s, 2, 1⟩, (generate_ec_fragments (testRsEncode 1) [[5]]).getD s []⟩

def c3frame : QRContent := ⟨⟨999, 0, 1, 0⟩, [7]⟩

def c6frame : QRContent := ⟨⟨0, 0, 5, 1⟩, [1]⟩

/-- C2: for any k equal-length data chunks and the E parity chunks produced
by the column-wise Reed-Solomon coder, deleting any subset of at most E
chunks (data or parity) and decoding with the deleted positions supplied as
the erasure set reconstructs the original k data chunks bit-for-bit.  The
per-column reedsolo codec is a parameter constrained by its documented
systematic erasure contract. -/
theorem C2_erasure_recovery
    (rsDec : Nat → List Nat → List Nat → Option (List Nat))
    (enc : List Nat → List Nat)
    (frags : List (List Nat)) (k L E : Nat) (keep : Nat → Bool)
    (mk : Nat → QRContent)
    (hk : frags.length = k) (hR : Rect frags L) (hk1 : 0 < k) (hL1 : 0 < L)
    (hE : 0 < E)
    (hlen : ∀ msg, (enc msg).length = msg.length + E)
    (hdec : ∀ msg, msg.length = k →
      ∀ dropped, dropped.Pairwise (· < ·) → (∀ i ∈ dropped, i < k + E) →
        dropped.length ≤ E →
        rsDec E (eraseMask (enc msg) dropped) dropped = some msg)
    (hdrop : (droppedList keep (k + E)).length ≤ E)
    (hmk : ∀ s, (mk s).doc_fragment = (generate_ec_fragments enc frags).getD s []) :
    recover_payloads rsDec (keptDict mk keep (k + E)) (k + E) E = .ok frags := by
  obtain ⟨hflen, hfrect, hfcols⟩ := generate_ec_fragments_parts hk hR hk1 hL1 hlen
  have hfne : frags ≠ [] := by
    intro h
    rw [h] at hk
    simp at hk
    omega
  have hkeepne : (List.range (k + E)).filter keep ≠ [] := by
    intro h
    have htot := filter_keep_length keep (k + E)
    rw [h] at htot
    simp at htot
    omega
  rw [recover_payloads_keep_eq rsDec (L := L) hflen hfrect hkeepne hmk, if_pos hE]
  rw [pyZip_maskedRows hk hR hk1 hL1 hlen, List.map_map]
  have hcols_rect : Rect (pyZip frags) k := by
    have := pyZip_rect hfne hR
    rwa [hk] at this
  have hmapped : ((pyZip frags).map
      ((fun col => rsDec E col (droppedList keep (k + E)))
        ∘ fun c => eraseMask (enc c) (droppedList keep (k + E))))
      = (pyZip frags).map some := by
    apply List.map_congr_left
    intro c hc
    exact hdec c (hcols_rect c hc) _ (droppedList_pairwise keep (k + E))
      droppedList_bound hdrop
  rw [hmapped, allSome_map_some]
  show Except.ok (pyZip (pyZip frags)) = _
  rw [pyZip_pyZip hfne hR hL1]

/-- C2 witness: one data chunk of one byte and one parity chunk from the
toy systematic codec; the data chunk itself is deleted and recovered. -/
theorem C2_erasure_recovery_witness :
    recover_payloads testRsDecode (keptDict c2mk (fun s => s == 1) 2) 2 1
      = .ok [[5]] :=
  C2_erasure_recovery testRsDecode (testRsEncode 1) [[5]] 1 1 1 (fun s => s == 1)
    c2mk rfl
    (by
      intro r hr
      simp at hr
      simp [hr])
    (by decide) (by decide) (by decide) (testRs_len 1) testRs_erasure_contract
    (by decide) (fun s => rfl)

/-- C5 counterexample: a QR payload that fails to parse makes
parse_qr_contents fail with BadFrame even though another payload in the
same batch parses successfully, so the bad QR is not treated as missing. -/
theorem C5_counterexample :
    parse_qr_contents TestExt.parseQRb85 [[], TestExt.dumpQRb85 tc1] []
        = .error .BadFrame ∧
    TestExt.parseQRb85 (TestExt.dumpQRb85 tc1) = some tc1 :=
  ⟨rfl, testFrame_roundtrip tc1⟩

/-- C5 amended: a QR whose base-85 decode or QRContent frame parse fails
aborts the whole parse with a BadFrame error, even when other frames parse
successfully; it is not treated as missing. -/
theorem C5_badframe_aborts (parse : List Nat → Option QRContent)
    (datas : List (List Nat)) (acc : QRDict)
    (h : ∃ d ∈ datas, parse d = none) :
    parse_qr_contents parse datas acc = .error .BadFrame :=
  parse_qr_contents_fails parse datas acc h

/-- C5 witness: instantiation of the amended claim on the counterexample
batch. -/
theorem C5_badframe_aborts_witness :
    parse_qr_contents TestExt.parseQRb85 [[], TestExt.dumpQRb85 tc1] []
      = .error .BadFrame :=
  C5_badframe_aborts TestExt.parseQRb85 [[], TestExt.dumpQRb85 tc1] []
    ⟨[], by simp, rfl⟩

/-- C7 counterexample: two frames with sequence number 0 but different
fragments; both the in-batch assignment of parse_qr_contents and the
dict.update merge keep the LATER frame, not the first. -/
theorem C7_counterexample :
    merge_contents [(0, tc1)] [(0, tc2)] = [(0, tc2)] ∧
    parse_qr_contents TestExt.parseQRb85
        [TestExt.dumpQRb85 tc1, TestExt.dumpQRb85 tc2] [] = .ok [(0, tc2)] ∧
    tc1 ≠ tc2 :=
  ⟨rfl, rfl, by decide⟩

/-- C7 amended: when frames with the same sequence_number are recovered
more than once, the merged frame map keeps the LAST frame decoded for that
sequence number (dict assignment and dict.update overwrite existing
entries); earlier duplicates are discarded, and keys absent from the new
batch keep their existing frame. -/
theorem C7_last_win {d₁ d₂ : QRDict} (hnodup : (d₂.map Prod.fst).Nodup) (j : Nat) :
    (∀ v, alookup d₂ j = some v → alookup (merge_contents d₁ d₂) j = some v) ∧
    (alookup d₂ j = none → alookup (merge_contents d₁ d₂) j = alookup d₁ j) :=
  alookup_aupdate d₂ d₁ hnodup j

/-- C7 witness: the merged map holds the later duplicate at key 0. -/
theorem C7_last_win_witness :
    alookup (merge_contents [(0, tc1)] [(0, tc2)]) 0 = some tc2 :=
  (C7_last_win (by decide) 0).1 tc2 rfl

/-- C10 counterexample: a single data chunk of length zero with num_ecc 1
produces an empty fragment list, not a list of length k + num_ecc = 2. -/
theorem C10_counterexample :
    generate_ec_fragments (testRsEncode 1) [([] : List Nat)] = [] ∧
    (1 : Nat) + 1 ≠ 0 :=
  ⟨rfl, by decide⟩

/-- C10 amended: for every nonempty list of k equal-length data chunks of
positive length and every num_ecc of at least 1, the fragment list returned
by the error-correction extension has length k + num_ecc, its first k
fragments are byte-identical to the input data chunks, and every fragment
has the data chunks' common length.  The per-column reedsolo encoder is a
parameter constrained to be systematic with num_ecc parity symbols. -/
theorem C10_systematic (enc : List Nat → List Nat)
    (frags : List (List Nat)) (k L E : Nat)
    (hk : frags.length = k) (hR : Rect frags L) (hk1 : 0 < k) (hL1 : 0 < L)
    (_hE : 1 ≤ E)
    (hlen : ∀ msg, (enc msg).length = msg.length + E)
    (hsys : ∀ msg, (enc msg).take msg.length = msg) :
    (generate_ec_fragments enc frags).length = k + E ∧
    (generate_ec_fragments enc frags).take k = frags ∧
    Rect (generate_ec_fragments enc frags) L := by
  obtain ⟨h1, h2, _⟩ := generate_ec_fragments_parts hk hR hk1 hL1 hlen
  exact ⟨h1, generate_ec_fragments_take hk hR hk1 hL1 hlen hsys, h2⟩

/-- C10 witness: one one-byte data chunk with one parity symbol. -/
theorem C10_systematic_witness :
    (generate_ec_fragments (testRsEncode 1) [[5]]).length = 1 + 1 ∧
    (generate_ec_fragments (testRsEncode 1) [[5]]).take 1 = [[5]] ∧
    Rect (generate_ec_fragments (testRsEncode 1) [[5]]) 1 :=
  C10_systematic (testRsEncode 1) [[5]] 1 1 1 rfl
    (by
      intro r hr
      simp at hr
      simp [hr])
    (by decide) (by decide) (by decide) (testRs_len 1) (testRs_systematic 1)

/-- C1: for every document (UTF-8 content plus optional JSON metadata),
every encode_ec_codes setting and every error tolerance (represented by its
QR byte capacity), parsing the QR payloads produced by a successful encode
and reconstructing yields a DocumentPayload whose content and metadata
equal the originals.  The external collaborators are constrained by their
documented contracts. -/
theorem C1_round_trip {μ : Type} (ext : ExtCollab μ) (doc : DocumentPayload μ)
    (ecc : Bool) (cap : Nat) (payloads : List (List Nat))
    (hcap : 0 < chunkSize cap)
    (htb : compressedBytes ext doc ≠ [])
    (hdoc : ext.parseDoc (ext.serializeDoc doc) = some doc)
    (hz : ∀ n, ext.decompress (compressedBytes ext doc ++ List.replicate n 0)
        = some (ext.serializeDoc doc))
    (hframe : ∀ c, ext.parseQRb85 (ext.dumpQRb85 c) = some c)
    (hrslen : ∀ e msg, (ext.rsEncode e msg).length = msg.length + e)
    (hrs0 : ∀ e msg, ext.rsDecode e (ext.rsEncode e msg) [] = some msg)
    (hok : generate_qr_payloads ext doc ecc cap = .ok payloads) :
    ∃ contents d,
      parse_qr_contents ext.parseQRb85 payloads [] = .ok contents ∧
      reconstruct_document_payload ext contents = .ok d ∧
      d.content = doc.content ∧ d.metadata = doc.metadata := by
  have hpl : payloads = qrPayloadList ext doc ecc cap := by
    unfold generate_qr_payloads at hok
    by_cases hg : N_MAX_QRS ≤ nQrExpected ecc (numFragments ext doc cap)
    · rw [if_pos hg] at hok
      exact absurd hok (by simp)
    · rw [if_neg hg] at hok
      cases hok
      rfl
  subst hpl
  exact ⟨encodedDict ext doc ecc cap, doc,
    parse_qrPayloadList ext doc ecc cap hframe,
    reconstruct_encodedDict ext doc ecc cap hcap htb hdoc hz hrslen hrs0,
    rfl, rfl⟩

/-- C1 witness: a concrete document with metadata, error correction on, at
a concrete capacity, through the concrete collaborator instances. -/
theorem C1_round_trip_witness :
    ∃ contents d,
      parse_qr_contents TestExt.parseQRb85
          (qrPayloadList TestExt ⟨"ab", some 7⟩ true 100) [] = .ok contents ∧
      reconstruct_document_payload TestExt contents = .ok d ∧
      d.content = "ab" ∧ d.metadata = some 7 :=
  C1_round_trip TestExt ⟨"ab", some 7⟩ true 100
    (qrPayloadList TestExt ⟨"ab", some 7⟩ true 100)
    (by decide) (by decide) (testParse_serialize _)
    (fun n => testDecompress_spec _ n) testFrame_roundtrip
    testRs_len testRs_roundtrip rfl

/-- C3: the fingerprint both sides compute is the 8-byte SHAKE-256 digest
(read as a big-endian uint64 by the collaborator) of the compressed
document after stripping trailing null bytes, provided the stream does not
begin with a null byte (zlib streams begin with 0x78); every generated QR
payload carries it as document_hash; and, once the sufficiency guard and
fragment recovery have passed, decode fails with the checksum-mismatch
error exactly when the digest recomputed from the concatenated recovered
chunks differs from the first frame's document_hash. -/
theorem C3_fingerprint {μ : Type} (ext : ExtCollab μ) (doc : DocumentPayload μ)
    (ecc : Bool) (cap : Nat) (h0 : Nat)
    (hhead : (compressedBytes ext doc).head? = some h0) (h0ne : h0 ≠ 0)
    (s0 : Nat) (c0 : QRContent) (rest : QRDict) (sps : List (List Nat)) (j0 : Nat)
    (hguard : ¬ ((s0, c0) :: rest).length
        < c0.meta.total_qr_codes - c0.meta.num_ecc)
    (hrecov : recover_payloads ext.rsDecode ((s0, c0) :: rest)
        c0.meta.total_qr_codes c0.meta.num_ecc = .ok sps)
    (hjhead : sps.join.head? = some j0) (hj0 : j0 ≠ 0) :
    documentHash ext doc
        = ext.shake256len8 (stripTrailingNulls (compressedBytes ext doc)) ∧
    (∀ pl ∈ qrPayloadList ext doc ecc cap,
        ∃ c, pl = ext.dumpQRb85 c
          ∧ c.meta.document_hash = documentHash ext doc) ∧
    (reconstruct_document_payload ext ((s0, c0) :: rest)
        = .error .ChecksumMismatch
      ↔ ext.shake256len8 (stripTrailingNulls sps.join)
          ≠ c0.meta.document_hash) := by
  refine ⟨?_, ?_, ?_⟩
  · unfold documentHash
    rw [pyStrip0_eq_stripTrailing hhead h0ne]
  · intro pl hpl
    unfold qrPayloadList at hpl
    rcases List.mem_map.mp hpl with ⟨p, _, rfl⟩
    exact ⟨_, rfl, rfl⟩
  · rw [reconstruct_cons, if_neg hguard, hrecov]
    show (if ext.shake256len8 (pyStrip0 sps.join) ≠ c0.meta.document_hash then
        (.error .ChecksumMismatch : Except QRDecodeError (DocumentPayload μ))
      else
        match ext.decompress sps.join with
        | none => .error .Corrupt
        | some inflated =>
          match ext.parseDoc inflated with
          | none => .error .Corrupt
          | some d => .ok d) = .error .ChecksumMismatch
      ↔ ext.shake256len8 (stripTrailingNulls sps.join) ≠ c0.meta.document_hash
    rw [pyStrip0_eq_stripTrailing hjhead hj0]
    by_cases hc : ext.shake256len8 (stripTrailingNulls sps.join)
        ≠ c0.meta.document_hash
    · rw [if_pos hc]
      simp [hc]
    · rw [if_neg hc]
      simp only [hc, iff_false]
      cases hdec : ext.decompress sps.join with
      | none => simp [hdec]
      | some inflated =>
        cases hp : ext.parseDoc inflated with
        | none => simp [hdec, hp]
        | some d => simp [hdec, hp]

/-- C3 witness: a concrete one-frame dict whose stored hash disagrees with
the digest of the recovered chunk, and the concrete compressed stream of
the empty document. -/
theorem C3_fingerprint_witness :
    documentHash TestExt testDocEmpty
        = TestExt.shake256len8
            (stripTrailingNulls (compressedBytes TestExt testDocEmpty)) ∧
    (∀ pl ∈ qrPayloadList TestExt testDocEmpty false 100,
        ∃ c, pl = TestExt.dumpQRb85 c
          ∧ c.meta.document_hash = documentHash TestExt testDocEmpty) ∧
    (reconstruct_document_payload TestExt ((0, c3frame) :: [])
        = .error .ChecksumMismatch
      ↔ TestExt.shake256len8 (stripTrailingNulls [[7]].join)
          ≠ c3frame.meta.document_hash) :=
  C3_fingerprint TestExt testDocEmpty false 100 1 rfl (by decide)
    0 c3frame [] [[7]] 7 (by decide) rfl rfl (by decide)

/-- C4: with chunk_size = ((capacity - PROTOBUF_RESERVED_LEN) / 5) * 4, a
document no longer than chunk_size is emitted as one unpadded chunk, and a
longer one is split into ceil(len / chunk_size) chunks of exactly
chunk_size bytes whose concatenation is the input followed by less than
chunk_size null bytes of tail padding. -/
theorem C4_chunker (b : List Nat) (cap : Nat)
    (hcap : PROTOBUF_RESERVED_LEN + 5 ≤ cap) :
    (b.length ≤ chunkSize cap → makeFragments b (chunkSize cap) = [b]) ∧
    (chunkSize cap < b.length →
      (makeFragments b (chunkSize cap)).length
          = (b.length + chunkSize cap - 1) / chunkSize cap ∧
      Rect (makeFragments b (chunkSize cap)) (chunkSize cap) ∧
      (makeFragments b (chunkSize cap)).join
          = b ++ List.replicate
              ((makeFragments b (chunkSize cap)).length * chunkSize cap
                - b.length) 0 ∧
      (makeFragments b (chunkSize cap)).length * chunkSize cap - b.length
          < chunkSize cap) := by
  have hcs : 0 < chunkSize cap := by
    unfold chunkSize
    have h1 : 1 ≤ (cap - PROTOBUF_RESERVED_LEN) / 5 := by
      rw [Nat.le_div_iff_mul_le (by omega)]
      omega
    omega
  constructor
  · intro hle
    unfold makeFragments
    rw [if_pos hle]
  · intro hgt
    have hmf : makeFragments b (chunkSize cap)
        = split_file_content b (chunkSize cap) := by
      unfold makeFragments
      rw [if_neg (by omega)]
    obtain ⟨h1, h2, h3⟩ := split_file_content_spec hcs b.length b (Nat.le_refl _)
    have hml : max 1 ((b.length + chunkSize cap - 1) / chunkSize cap)
        = (b.length + chunkSize cap - 1) / chunkSize cap := by
      apply Nat.max_eq_right
      rw [Nat.le_div_iff_mul_le hcs]
      omega
    rw [hmf]
    refine ⟨by rw [h1, hml], h2, h3, ?_⟩
    rw [h1, hml]
    have hle1 : ((b.length + chunkSize cap - 1) / chunkSize cap) * chunkSize cap
        ≤ b.length + chunkSize cap - 1 := Nat.div_mul_le_self _ _
    omega

/-- C4 witness: ten bytes at capacity 79, where chunk_size is 8, giving two
chunks with six bytes of tail padding. -/
theorem C4_chunker_witness :
    (tb10.length ≤ chunkSize 79 → makeFragments tb10 (chunkSize 79) = [tb10]) ∧
    (chunkSize 79 < tb10.length →
      (makeFragments tb10 (chunkSize 79)).length
          = (tb10.length + chunkSize 79 - 1) / chunkSize 79 ∧
      Rect (makeFragments tb10 (chunkSize 79)) (chunkSize 79) ∧
      (makeFragments tb10 (chunkSize 79)).join
          = tb10 ++ List.replicate
              ((makeFragments tb10 (chunkSize 79)).length * chunkSize 79
                - tb10.length) 0 ∧
      (makeFragments tb10 (chunkSize 79)).length * chunkSize 79 - tb10.length
          < chunkSize 79) :=
  C4_chunker tb10 79 (by decide)

/-- C6: decode takes total_qr_codes and num_ecc from the first successfully
parsed frame; the sufficiency predicate holds exactly when at least
total_qr_codes - num_ecc distinct sequence numbers were recovered, and
reconstruction fails with the insufficient-codes error exactly when fewer
were recovered, proceeding otherwise. -/
theorem C6_sufficiency {μ : Type} (ext : ExtCollab μ) (s0 : Nat) (c0 : QRContent)
    (rest : QRDict) :
    (sufficient_decodes ((s0, c0) :: rest) = true
      ↔ c0.meta.total_qr_codes - c0.meta.num_ecc ≤ ((s0, c0) :: rest).length) ∧
    (reconstruct_document_payload ext ((s0, c0) :: rest)
        = .error .InsufficientCodes
      ↔ ((s0, c0) :: rest).length
          < c0.meta.total_qr_codes - c0.meta.num_ecc) := by
  constructor
  · show decide (c0.meta.total_qr_codes - c0.meta.num_ecc
        ≤ ((s0, c0) :: rest).length) = true ↔ _
    exact decide_eq_true_iff
  · rw [reconstruct_cons]
    by_cases hguard : ((s0, c0) :: rest).length
        < c0.meta.total_qr_codes - c0.meta.num_ecc
    · rw [if_pos hguard]
      exact iff_of_true rfl hguard
    · rw [if_neg hguard]
      simp only [hguard, iff_false]
      intro heq
      cases hrp : recover_payloads ext.rsDecode ((s0, c0) :: rest)
          c0.meta.total_qr_codes c0.meta.num_ecc with
      | error e =>
        rw [hrp] at heq
        have he : e = .InsufficientCodes := by
          cases heq
          rfl
        rw [he] at hrp
        exact recover_payloads_not_insufficient _ _ _ _ hrp
      | ok sps =>
        rw [hrp] at heq
        revert heq
        show (if ext.shake256len8 (pyStrip0 sps.join) ≠ c0.meta.document_hash
          then (.error .ChecksumMismatch : Except QRDecodeError (DocumentPayload μ))
          else
            match ext.decompress sps.join with
            | none => .error .Corrupt
            | some inflated =>
              match ext.parseDoc inflated with
              | none => .error .Corrupt
              | some d => .ok d) = .error .InsufficientCodes → False
        by_cases hc : ext.shake256len8 (pyStrip0 sps.join)
            ≠ c0.meta.document_hash
        · rw [if_pos hc]
          simp
        · rw [if_neg hc]
          cases hdec : ext.decompress sps.join with
          | none => simp [hdec]
          | some inflated =>
            cases hp : ext.parseDoc inflated with
            | none => simp [hdec, hp]
            | some d => simp [hdec, hp]

/-- C6 witness: a single recovered frame claiming five total codes with one
parity code; four frames are needed, one is present, so reconstruction
fails with the insufficient-codes error. -/
theorem C6_sufficiency_witness :
    (sufficient_decodes ((0, c6frame) :: []) = true
      ↔ c6frame.meta.total_qr_codes - c6frame.meta.num_ecc
          ≤ ((0, c6frame) :: ([] : QRDict)).length) ∧
    (reconstruct_document_payload TestExt ((0, c6frame) :: [])
        = .error .InsufficientCodes
      ↔ ((0, c6frame) :: ([] : QRDict)).length
          < c6frame.meta.total_qr_codes - c6frame.meta.num_ecc) :=
  C6_sufficiency TestExt 0 c6frame []

/-- C8: encode fails with the TooManyCodes error exactly when the projected
total nQrExpected reaches 2 ^ 32, succeeds whenever the projection equals
2 ^ 32 - 1, and with error correction off the projection at k fragments is
k itself, so the boundary sits exactly at total_qr_codes = 2 ^ 32. -/
theorem C8_too_many {μ : Type} (ext : ExtCollab μ) (doc : DocumentPayload μ)
    (ecc : Bool) (cap : Nat) (k : Nat) (hk : numFragments ext doc cap = k) :
    (generate_qr_payloads ext doc ecc cap = .error .TooManyCodes
      ↔ 2 ^ 32 ≤ nQrExpected ecc k) ∧
    (nQrExpected ecc k = 2 ^ 32 - 1 →
      generate_qr_payloads ext doc ecc cap
        = .ok (qrPayloadList ext doc ecc cap)) ∧
    nQrExpected false (2 ^ 32 - 1) = 2 ^ 32 - 1 ∧
    2 ^ 32 ≤ nQrExpected false (2 ^ 32) := by
  have hg : generate_qr_payloads ext doc ecc cap
      = if N_MAX_QRS ≤ nQrExpected ecc k then .error .TooManyCodes
        else .ok (qrPayloadList ext doc ecc cap) := by
    unfold generate_qr_payloads
    rw [hk]
  have hn : N_MAX_QRS = 2 ^ 32 := rfl
  rw [hn] at hg
  refine ⟨?_, ?_, rfl, Nat.le_refl _⟩
  · rw [hg]
    by_cases hge : 2 ^ 32 ≤ nQrExpected ecc k
    · rw [if_pos hge]
      exact iff_of_true rfl hge
    · rw [if_neg hge]
      exact iff_of_false (by simp) hge
  · intro heq
    rw [hg, if_neg (by rw [heq]; omega)]

/-- C8 witness: one fragment with error correction off is far below the
boundary, so encode succeeds. -/
theorem C8_too_many_witness :
    generate_qr_payloads TestExt testDocEmpty false 100
        ≠ .error .TooManyCodes ∧
    2 ^ 32 ≤ nQrExpected false (2 ^ 32) := by
  have h := C8_too_many TestExt testDocEmpty false 100 1 rfl
  refine ⟨fun hcontra => ?_, h.2.2.2⟩
  have hle := h.1.mp hcontra
  have h1 : nQrExpected false 1 = 1 := rfl
  omega

/-- C9 counterexample: encoding the empty document with no metadata and
encode_ec_codes on produces two QR payloads (one data, one parity), not
exactly one. -/
theorem C9_counterexample :
    (generate_qr_payloads TestExt testDocEmpty true 100).toOption.map
        List.length = some 2 := rfl

/-- C9 amended: a document whose compressed form fits in one chunk (the
empty document with no metadata in particular) is encoded as exactly one QR
when encode_ec_codes is false and exactly two QRs (one data plus one
parity) when it is true, for every error tolerance; decoding the payloads
returns the original content and metadata. -/
theorem C9_single_chunk {μ : Type} (ext : ExtCollab μ) (doc : DocumentPayload μ)
    (cap : Nat)
    (hcap : 0 < chunkSize cap)
    (hfit : (compressedBytes ext doc).length ≤ chunkSize cap)
    (htb : compressedBytes ext doc ≠ [])
    (hdoc : ext.parseDoc (ext.serializeDoc doc) = some doc)
    (hz : ∀ n, ext.decompress (compressedBytes ext doc ++ List.replicate n 0)
        = some (ext.serializeDoc doc))
    (hframe : ∀ c, ext.parseQRb85 (ext.dumpQRb85 c) = some c)
    (hrslen : ∀ e msg, (ext.rsEncode e msg).length = msg.length + e)
    (hrs0 : ∀ e msg, ext.rsDecode e (ext.rsEncode e msg) [] = some msg) :
    (qrPayloadList ext doc false cap).length = 1 ∧
    (qrPayloadList ext doc true cap).length = 2 ∧
    (∀ ecc, generate_qr_payloads ext doc ecc cap
        = .ok (qrPayloadList ext doc ecc cap)) ∧
    (∀ ecc, parse_qr_contents ext.parseQRb85 (qrPayloadList ext doc ecc cap) []
        = .ok (encodedDict ext doc ecc cap)) ∧
    (∀ ecc, reconstruct_document_payload ext (encodedDict ext doc ecc cap)
        = .ok doc) := by
  have hfrag : makeFragments (compressedBytes ext doc) (chunkSize cap)
      = [compressedBytes ext doc] := by
    unfold makeFragments
    rw [if_pos hfit]
  have hk1 : numFragments ext doc cap = 1 := by
    unfold numFragments
    rw [hfrag]
    rfl
  have hql : ∀ ecc, (qrPayloadList ext doc ecc cap).length
      = (finalFragments ext doc ecc cap).length := by
    intro ecc
    unfold qrPayloadList
    rw [List.length_map, List.enum_length]
  have htbl : 0 < (compressedBytes ext doc).length := by
    cases hb : compressedBytes ext doc with
    | nil => exact absurd hb htb
    | cons a t => simp [hb]
  have hfffalse : (finalFragments ext doc false cap).length = 1 := by
    have h0 : finalFragments ext doc false cap
        = if 0 < numEcc false (numFragments ext doc cap) then
            generate_ec_fragments
              (ext.rsEncode (numEcc false (numFragments ext doc cap)))
              (makeFragments (compressedBytes ext doc) (chunkSize cap))
          else makeFragments (compressedBytes ext doc) (chunkSize cap) := rfl
    rw [h0, if_neg (by simp [numEcc]), hfrag]
    rfl
  have hEtrue : numEcc true (numFragments ext doc cap) = 1 := by
    rw [hk1]
    rfl
  have hfftrue : (finalFragments ext doc true cap).length = 2 := by
    have h0 : finalFragments ext doc true cap
        = if 0 < numEcc true (numFragments ext doc cap) then
            generate_ec_fragments
              (ext.rsEncode (numEcc true (numFragments ext doc cap)))
              (makeFragments (compressedBytes ext doc) (chunkSize cap))
          else makeFragments (compressedBytes ext doc) (chunkSize cap) := rfl
    rw [h0, hEtrue, if_pos (by omega), hfrag]
    obtain ⟨hflen, _, _⟩ := @generate_ec_fragments_parts
      [compressedBytes ext doc] 1 (compressedBytes ext doc).length 1
      (ext.rsEncode 1) rfl
      (by
        intro r hr
        simp at hr
        simp [hr])
      (by simp) htbl (hrslen 1)
    rw [hflen]
  refine ⟨?_, ?_, ?_, ?_, ?_⟩
  · rw [hql, hfffalse]
  · rw [hql, hfftrue]
  · intro ecc
    unfold generate_qr_payloads
    rw [hk1, if_neg ?_]
    cases ecc
    · show ¬ N_MAX_QRS ≤ nQrExpected false 1
      decide
    · show ¬ N_MAX_QRS ≤ nQrExpected true 1
      decide
  · intro ecc
    exact parse_qrPayloadList ext doc ecc cap hframe
  · intro ecc
    exact reconstruct_encodedDict ext doc ecc cap hcap htb hdoc hz hrslen hrs0

/-- C9 witness: the empty document with no metadata at capacity 100 through
the concrete collaborator instances. -/
theorem C9_single_chunk_witness :
    (qrPayloadList TestExt testDocEmpty false 100).length = 1 ∧
    (qrPayloadList TestExt testDocEmpty true 100).length = 2 ∧
    (∀ ecc, generate_qr_payloads TestExt testDocEmpty ecc 100
        = .ok (qrPayloadList TestExt testDocEmpty ecc 100)) ∧
    (∀ ecc, parse_qr_contents TestExt.parseQRb85
        (qrPayloadList TestExt testDocEmpty ecc 100) []
        = .ok (encodedDict TestExt testDocEmpty ecc 100)) ∧
    (∀ ecc, reconstruct_document_payload TestExt
        (encodedDict TestExt testDocEmpty ecc 100) = .ok testDocEmpty) :=
  C9_single_chunk TestExt testDocEmpty 100 (by decide) (by decide) (by decide)
    (testParse_serialize _) (fun n => testDecompress_spec _ n) testFrame_roundtrip
    testRs_len testRs_roundtrip

end QRDM
